import Mathlib

/-!
Verification of the TSTools precise-time conversion kernel
(`src/python/lib/convtime.py`).

The Python code computes with IEEE-754 binary64 floats.  We embed a float
as the exact rational it denotes, and model every float operation as the
exact rational operation followed by `fl`, rounding to the nearest
binary64 value (53-bit significand, round half to even).  Overflow and
subnormals are irrelevant in the magnitude range exercised by this
library, so `fl` implements the normal-range rounding only.
-/

namespace TST

/- Batteries marks the `Rat` arithmetic operations `@[irreducible]`, which
blocks `decide` on concrete rational computations; restore reducibility. -/
attribute [local semireducible] Rat.add Rat.mul Rat.sub Rat.inv Rat.ofScientific

/-- `2 ^ e` in `ℚ` for an integer exponent. -/
def pow2 (e : ℤ) : ℚ := if 0 ≤ e then ((2 : ℚ) ^ e.toNat) else ((2 : ℚ) ^ (-e).toNat)⁻¹

/-- Fueled binary logarithm on `ℕ` (`nlog2Go fuel n = ⌊log₂ n⌋` when `n < 2 ^ fuel`). -/
def nlog2Go : Nat → Nat → Nat
  | 0, _ => 0
  | fuel + 1, n => if n ≤ 1 then 0 else nlog2Go fuel (n / 2) + 1

/-- `⌊log₂ n⌋` for `n ≥ 1` (0 at 0). -/
def nlog2 (n : Nat) : Nat := nlog2Go n n

/-- `⌊log₂ |q|⌋` for `q ≠ 0`: the unique `e` with `2 ^ e ≤ |q| < 2 ^ (e+1)`. -/
def ratLog2 (q : ℚ) : ℤ :=
  let a := q.num.natAbs
  let b := q.den
  let e0 : ℤ := (nlog2 a : ℤ) - (nlog2 b : ℤ) - 1
  if pow2 (e0 + 1) ≤ |q| then e0 + 1 else e0

/-- Round a rational to the nearest integer, ties to even. -/
def rhe (y : ℚ) : ℤ :=
  let f := ⌊y⌋
  let r := y - (f : ℚ)
  if r < 1 / 2 then f
  else if 1 / 2 < r then f + 1
  else if f % 2 = 0 then f else f + 1

/-- Round a rational to the nearest IEEE-754 binary64 value
(53-bit significand, round half to even; normal range). -/
def fl (q : ℚ) : ℚ :=
  if q = 0 then 0
  else
    let e := ratLog2 q
    let m := rhe (|q| * pow2 (52 - e))
    (if q < 0 then -1 else 1) * (m : ℚ) * pow2 (e - 52)

/-- `q` is (the value of) a binary64 float. -/
def IsDbl (q : ℚ) : Prop := fl q = q

/-- Python `int()` / `math.trunc` on a float: truncation toward zero. -/
def pytrunc (q : ℚ) : ℤ := if 0 ≤ q then ⌊q⌋ else ⌈q⌉

/-- Python 3 `round()` on a float: nearest integer, ties to even. -/
def pyround (q : ℚ) : ℤ := rhe q

/-- Python float addition. -/
def pyadd (a b : ℚ) : ℚ := fl (a + b)

/-- Python float subtraction. -/
def pysub (a b : ℚ) : ℚ := fl (a - b)

/-- Python float multiplication. -/
def pymul (a b : ℚ) : ℚ := fl (a * b)

/-- Python float division. -/
def pydiv (a b : ℚ) : ℚ := fl (a / b)

/-- Python `math.modf`: (fractional part, integer part), both exact
(both parts of a float are exactly representable). -/
def pymodf (q : ℚ) : ℚ × ℚ := (q - (pytrunc q : ℚ), (pytrunc q : ℚ))

/-!  Translation of `src/python/lib/convtime.py`.

Conventions: a Python float is a `ℚ` and every float operation goes through
`fl` (via `pyadd`/`pysub`/`pymul`/`pydiv`).  Python ints are exact; where
Python converts an int to a float, the conversion is exact whenever the
int's magnitude is below `2^53`, which holds for every intermediate integer
of these algorithms in the ranges we consider, so such conversions are
written as plain casts (two exceptions take no such range for granted and
are wrapped in `fl` explicitly: the rounded-seconds count in `mjd2_to_cal`,
and the carry `tmp` in `clean_mjd2`, whose argument is unbounded).  An
`mjd2` value is the
two-element list `[day, frac]`; calendar payloads are six-element lists. -/

/-- Float literal `30.6001`. -/
def c30_6001 : ℚ := fl (306001 / 10000)

/-- Float literal `122.1`. -/
def c122_1 : ℚ := fl (1221 / 10)

/-- Float literal `365.25` (exactly representable). -/
def c365_25 : ℚ := 1461 / 4

/-- Float literal `36524.25` (exactly representable). -/
def c36524_25 : ℚ := 146097 / 4

/-- Float literal `1867216.25` (exactly representable). -/
def c1867216_25 : ℚ := 7468865 / 4

/-- Float literal `2400000.5` (exactly representable). -/
def c2400000_5 : ℚ := 4800001 / 2

/-- Float literal `1720994.5` (exactly representable). -/
def c1720994_5 : ℚ := 3441989 / 2

/-- Float value of `1e-6` as computed by `ms*1e-6` scaling. -/
def c1em6 : ℚ := fl (1 / 1000000)

/-- `clean_mjd2` from the source: carry the integer part of `frac` into `day`.
`tmp = int(frac)` for `frac ≥ 0`, else `int(frac) - 1` (exact Python int
arithmetic); in the two float operations `mjd2[0] + tmp` and
`mjd2[1] - tmp` the int `tmp` is first converted to a double — a
round-half-even conversion, hence the explicit `fl` — and the operation
then rounds again. -/
def clean_mjd2 (mjd2 : List ℚ) : List ℚ :=
  match mjd2 with
  | d :: f :: _ =>
    let tmp : ℤ := if 0 ≤ f then pytrunc f else pytrunc f - 1
    [pyadd d (fl (tmp : ℚ)), pysub f (fl (tmp : ℚ))]
  | _ => []

/-- `date_to_jd` from the source (Duffett-Smith / Zwart).  The Gregorian
correction `B` is exposed as `date_to_jd_B` below. -/
def date_to_jd_B (year month day : ℚ) : ℤ :=
  if year < 1582 ∨ (year = 1582 ∧ month < 10) ∨ (year = 1582 ∧ month = 10 ∧ day < 15) then
    0
  else
    let yearp := if month = 1 ∨ month = 2 then year - 1 else year
    let A := pytrunc (pydiv yearp 100)
    2 - A + pytrunc (pydiv (A : ℚ) 4)

/-- `date_to_jd` from the source. -/
def date_to_jd (year month day : ℚ) : ℚ :=
  let yearp := if month = 1 ∨ month = 2 then year - 1 else year
  let monthp := if month = 1 ∨ month = 2 then month + 12 else month
  let B := date_to_jd_B year month day
  let C : ℤ :=
    if yearp < 0 then pytrunc (pysub (pymul c365_25 yearp) (3 / 4))
    else pytrunc (pymul c365_25 yearp)
  let D : ℤ := pytrunc (pymul c30_6001 (monthp + 1))
  pyadd (pyadd ((B + C + D : ℤ) : ℚ) day) c1720994_5

/-- The branch condition of `jd_to_date`: the Gregorian inverse correction is
applied when `I > 2299160`, where `I = int(jd + 0.5)`. -/
def jd_to_date_greg (jd0 : ℚ) : Bool :=
  2299160 < pytrunc (pyadd jd0 (1 / 2))

/-- `jd_to_date` from the source: Julian Day to (year, month, fractional day). -/
def jd_to_date (jd0 : ℚ) : ℤ × ℤ × ℚ :=
  let jd := pyadd jd0 (1 / 2)
  let F := jd - (pytrunc jd : ℚ)
  let I : ℤ := pytrunc jd
  let A : ℤ := pytrunc (pydiv (pysub (I : ℚ) c1867216_25) c36524_25)
  let B : ℤ := if jd_to_date_greg jd0 then I + 1 + A - pytrunc (pydiv (A : ℚ) 4) else I
  let C : ℤ := B + 1524
  let D : ℤ := pytrunc (pydiv (pysub (C : ℚ) c122_1) c365_25)
  let E : ℤ := pytrunc (pymul c365_25 (D : ℚ))
  let G : ℤ := pytrunc (pydiv ((C - E : ℤ) : ℚ) c30_6001)
  let day := pysub (pyadd ((C - E : ℤ) : ℚ) F) ((pytrunc (pymul c30_6001 (G : ℚ)) : ℤ) : ℚ)
  let month : ℤ := if (G : ℚ) < 27 / 2 then G - 1 else G - 13
  let year : ℤ := if 5 / 2 < (month : ℚ) then D - 4716 else D - 4715
  (year, month, day)

/-- `hmsm_to_days` from the source. -/
def hmsm_to_days (hour mn sec micro : ℚ) : ℚ :=
  let d1 := pyadd sec (pydiv micro (10 ^ 6))
  let d2 := pyadd mn (pydiv d1 60)
  let d3 := pyadd hour (pydiv d2 60)
  pydiv d3 24

/-- `days_to_hmsm` from the source.  The `math.modf` splits are exact; the
three integer parts are returned through `int()`. -/
def days_to_hmsm (days : ℚ) : ℤ × ℤ × ℤ × ℚ :=
  let hours := pymul days 24
  let hour := pytrunc hours
  let mins := pymul (hours - (hour : ℚ)) 60
  let mn := pytrunc mins
  let secs := pymul (mins - (mn : ℚ)) 60
  let sec := pytrunc secs
  let micro := pymul (secs - (sec : ℚ)) (10 ^ 6)
  (hour, mn, sec, micro)

/-- `cal_to_mjd2` from the source. -/
def cal_to_mjd2 (cal : List ℚ) : List ℚ :=
  match cal with
  | y :: m :: d :: h :: mn :: s :: _ =>
    let jd := date_to_jd y m d
    let mjd := pysub jd c2400000_5
    let ssI := pytrunc s
    let ms := pymul (pysub s (ssI : ℚ)) (10 ^ 6)
    let fd := hmsm_to_days h mn (ssI : ℚ) ms
    [((pytrunc mjd : ℤ) : ℚ), fd]
  | _ => []

/-- `mjd2_to_cal` from the source, with the optional rounding increment
`aprx` (99 means no rounding) and the seconds → minute → hour → day carry
cascade.  `round(ss/aprx)` is a Python int, converted back to float (with
rounding, hence the explicit `fl`) before the multiplication by `aprx`. -/
def mjd2_to_cal (mjd2 : List ℚ) (aprx : ℚ) : List ℚ :=
  match mjd2 with
  | mjd :: fd :: _ =>
    let q := days_to_hmsm fd
    let ss0 := pyadd (q.2.2.1 : ℚ) (pymul q.2.2.2 c1em6)
    let jd0 := pyadd mjd c2400000_5
    let r : ℚ × ℤ × ℤ × ℚ :=
      if aprx = 99 then (ss0, q.2.1, q.1, jd0)
      else
        let ssr := pymul (fl (pyround (pydiv ss0 aprx) : ℚ)) aprx
        if ssr = 60 then
          if q.2.1 + 1 = 60 then
            if q.1 + 1 = 24 then ((0 : ℚ), (0 : ℤ), (0 : ℤ), pyadd jd0 1)
            else ((0 : ℚ), (0 : ℤ), q.1 + 1, jd0)
          else ((0 : ℚ), q.2.1 + 1, q.1, jd0)
        else (ssr, q.2.1, q.1, jd0)
    let t := jd_to_date r.2.2.2
    [(t.1 : ℚ), (t.2.1 : ℚ), ((pytrunc t.2.2 : ℤ) : ℚ), (r.2.2.1 : ℚ), (r.2.1 : ℚ), r.1]
  | _ => []

/-- `gps_to_mjd2` from the source; GPS epoch MJD 44244 (1980-01-06). -/
def gps_to_mjd2 (gps : List ℚ) : List ℚ :=
  match gps with
  | w :: s :: _ =>
    let tmp1 := w * 7
    let tmp2 := pytrunc (pydiv s 86400)
    let mjd := tmp1 + 44244 + (tmp2 : ℚ)
    let fd := pysub (pydiv s 86400) (tmp2 : ℚ)
    [mjd, fd]
  | _ => []

/-- `gps2_to_mjd2` from the source. -/
def gps2_to_mjd2 (gps2 : List ℚ) : List ℚ :=
  match gps2 with
  | w :: dow :: h :: mn :: s :: _ =>
    match gps_to_mjd2 [w, 0] with
    | d :: _ :: _ =>
      let ssI := pytrunc s
      let ms := pymul (pysub s (ssI : ℚ)) (10 ^ 6)
      [d + (pytrunc dow : ℚ), hmsm_to_days h mn (ssI : ℚ) ms]
    | _ => []
  | _ => []

/-- `doy_to_mjd2` from the source (day-of-year is 1-based). -/
def doy_to_mjd2 (doy : List ℚ) : List ℚ :=
  match doy with
  | y :: ddd :: h :: mn :: s :: _ =>
    match cal_to_mjd2 [y, 1, 1, h, mn, s] with
    | d :: f :: _ => clean_mjd2 [d + (ddd - 1), f]
    | _ => []
  | _ => []

/-- `mjd_to_mjd2` from the source (`math.modf` split). -/
def mjd_to_mjd2 (mjd : ℚ) : List ℚ :=
  [((pytrunc mjd : ℤ) : ℚ), mjd - (pytrunc mjd : ℚ)]

/-- `mjd3_to_mjd2` from the source. -/
def mjd3_to_mjd2 (mjd3 : List ℚ) : List ℚ :=
  match mjd3 with
  | d :: s :: _ => [d, pydiv s 86400]
  | _ => []

/-- `jd_to_mjd2` from the source. -/
def jd_to_mjd2 (jd : ℚ) : List ℚ :=
  let mjd := pysub jd c2400000_5
  [((pytrunc mjd : ℤ) : ℚ), pysub mjd (pytrunc mjd : ℚ)]

/-- `mjd2_to_mjd` from the source. -/
def mjd2_to_mjd (mjd2 : List ℚ) : ℚ :=
  match mjd2 with
  | d :: f :: _ => pyadd d f
  | _ => 0

/-- `mjd2_to_mjd3` from the source. -/
def mjd2_to_mjd3 (mjd2 : List ℚ) : List ℚ :=
  match mjd2 with
  | d :: f :: _ => [d, pymul f 86400]
  | _ => []

/-- `mjd2_to_jd` from the source. -/
def mjd2_to_jd (mjd2 : List ℚ) : ℚ :=
  match mjd2 with
  | d :: f :: _ => pyadd (pyadd d f) c2400000_5
  | _ => 0

/-- The GPS week computation of `mjd2_to_gps2`:
`tmp1 = int((mjd - 44244)/7.)` — float division then truncation toward 0. -/
def gpsWeekOf (d : ℚ) : ℤ := pytrunc (pydiv (d - 44244) 7)

/-- `mjd2_to_gps2` from the source: calendar fields at `aprx`, then the date
is re-encoded and split into GPS week and day-of-week. -/
def mjd2_to_gps2 (mjd2 : List ℚ) (aprx : ℚ) : List ℚ :=
  match mjd2_to_cal mjd2 aprx with
  | yyyy :: mm :: dd :: hh :: mn :: ss :: _ =>
    match cal_to_mjd2 [yyyy, mm, dd, 0, 0, 0] with
    | d :: _ :: _ =>
      let tmp1 := gpsWeekOf d
      let tmp2 := d - 44244 - 7 * (tmp1 : ℚ)
      [(tmp1 : ℚ), (pytrunc tmp2 : ℚ), hh, mn, ss]
    | _ => []
  | _ => []

/-- `mjd2_to_gps` from the source (no rounding increment). -/
def mjd2_to_gps (mjd2 : List ℚ) : List ℚ :=
  match mjd2_to_gps2 mjd2 99 with
  | gwkn :: gwkd :: hh :: mn :: ss :: _ =>
    [gwkn, pyadd (gwkd * 86400 + hh * 3600 + mn * 60) ss]
  | _ => []

/-- `mjd2_to_doy` from the source. -/
def mjd2_to_doy (mjd2 : List ℚ) (aprx : ℚ) : List ℚ :=
  match mjd2_to_cal mjd2 aprx with
  | yyyy :: mm :: dd :: hh :: mn :: ss :: _ =>
    let mjd := (cal_to_mjd2 [yyyy, mm, dd, 0, 0, 0]).headD 0
    let mjd0 := (cal_to_mjd2 [yyyy, 1, 1, 0, 0, 0]).headD 0
    [yyyy, mjd - mjd0 + 1, hh, mn, ss]
  | _ => []

/-- `year_to_mjd2` from the source (the nested `convtime` calls are the
compositions `mjd2_to_doy ∘ cal_to_mjd2` and `doy_to_mjd2`). -/
def year_to_mjd2 (year : ℚ) : List ℚ :=
  let iyear := pytrunc year
  let fyear := pysub year (iyear : ℚ)
  let nd := (mjd2_to_doy (cal_to_mjd2 [(iyear : ℚ), 12, 31, 0, 0, 0]) 99).getD 1 0
  let day := pymul nd fyear
  let iday := pytrunc day
  let fday := pysub day (iday : ℚ)
  match doy_to_mjd2 [(iyear : ℚ), (iday : ℚ) + 1, 0, 0, 0] with
  | d :: _ :: _ => [d, fday]
  | _ => []

/-- `mjd2_to_year` from the source. -/
def mjd2_to_year (mjd2 : List ℚ) : ℚ :=
  match mjd2 with
  | _ :: f :: _ =>
    let doy := mjd2_to_doy mjd2 99
    let iyear := doy.headD 0
    let nd := (mjd2_to_doy (cal_to_mjd2 [iyear, 12, 31, 0, 0, 0]) 99).getD 1 0
    let fyear := pydiv (pyadd (doy.getD 1 0 - 1) f) nd
    pyadd iyear fyear
  | _ => 0

/-- `last_doy` from the source. -/
def last_doy (yyyy : ℚ) : ℚ :=
  (mjd2_to_doy (cal_to_mjd2 [yyyy, 12, 31, 0, 0, 0]) 99).getD 1 0

/-- `yyyy_to_yy` from the source. -/
def yyyy_to_yy (yyyy : ℤ) : ℤ :=
  if 2000 ≤ yyyy then yyyy - 2000 else yyyy - 1900

/-!  Python string operations for `format_time`, over `List Char`. -/

/-- `str.find` helper: first index at which `pat` occurs in the suffix, or none. -/
def strFindGo (pat : List Char) : List Char → ℕ → Option ℕ
  | [], i => if pat.isEmpty then some i else none
  | c :: rest, i =>
    if pat.isPrefixOf (c :: rest) then some i else strFindGo pat rest (i + 1)

/-- Python `str.find`: first index of `pat` in `s`, or `-1`. -/
def strFind (s pat : List Char) : ℤ :=
  match strFindGo pat s 0 with
  | some i => (i : ℤ)
  | none => -1

/-- Fueled worker for `str.replace`. -/
def strReplaceGo (old new : List Char) : List Char → ℕ → List Char
  | s, 0 => s
  | [], _ => []
  | c :: rest, fuel + 1 =>
    if ¬ old.isEmpty ∧ old.isPrefixOf (c :: rest) then
      new ++ strReplaceGo old new ((c :: rest).drop old.length) fuel
    else c :: strReplaceGo old new rest fuel

/-- Python `str.replace`: replace every occurrence of `old` by `new`. -/
def strReplace (s old new : List Char) : List Char :=
  strReplaceGo old new s s.length

/-- Python slice `s[i:j]` (for `0 ≤ i ≤ j`). -/
def strSlice (s : List Char) (i j : ℕ) : List Char :=
  (s.drop i).take (j - i)

/-- Python `int()` on a string of decimal digits. -/
def parseNat (s : List Char) : ℕ :=
  s.foldl (fun acc c => acc * 10 + (c.toNat - 48)) 0

/-- Decimal digits of a natural number (fueled). -/
def natDigitsGo : ℕ → ℕ → List Char
  | 0, _ => []
  | fuel + 1, n =>
    if n = 0 then [] else natDigitsGo fuel (n / 10) ++ [Char.ofNat (48 + n % 10)]

/-- Decimal representation of a natural number. -/
def natStr (n : ℕ) : List Char :=
  if n = 0 then ['0'] else natDigitsGo (n + 1) n

/-- Python `"%0wd" % n`: zero-padded integer (sign included in the width). -/
def padNum (w : ℕ) (n : ℤ) : List Char :=
  let ds := natStr n.natAbs
  if n < 0 then
    '-' :: (List.replicate (w - 1 - ds.length) '0' ++ ds)
  else
    List.replicate (w - ds.length) '0' ++ ds

/-- Python `"%0w.pf" % q`: fixed-point formatting of the exact value of a
float, rounded half-to-even at `p` decimals, zero-padded to width `w`. -/
def fmtFixed (w p : ℕ) (q : ℚ) : List Char :=
  let n := rhe (q * 10 ^ p)
  let ds0 := natStr n.natAbs
  let ds := if ds0.length ≤ p then List.replicate (p + 1 - ds0.length) '0' ++ ds0 else ds0
  let body := if p = 0 then ds else ds.take (ds.length - p) ++ '.' :: ds.drop (ds.length - p)
  if n < 0 then '-' :: (List.replicate (w - 1 - body.length) '0' ++ body)
  else List.replicate (w - body.length) '0' ++ body

/-- `find_precision` from the source: parse the digits of `[<keyword><k>]`. -/
def find_precision (istr keyword : List Char) : ℕ :=
  let ind0 := (strFind istr ('[' :: keyword)).toNat
  let ind1 := ind0 + keyword.length + 1
  let ind2 := ind1 + (strFind (istr.drop ind1) [']']).toNat
  parseNat (strSlice istr ind1 ind2)

/-- `format_float` from the source: substitute every occurrence of the
`[<keyword><k>]` token by the `%0len.kf` rendering of `val`. -/
def format_float (istr keyword : List Char) (ulen : ℕ) (val : ℚ) : List Char :=
  let ind0 := (strFind istr ('[' :: keyword)).toNat
  let ind1 := ind0 + keyword.length + 1
  let ind2 := ind1 + (strFind (istr.drop ind1) [']']).toNat
  let prec := parseNat (strSlice istr ind1 ind2)
  let tlen := if prec = 0 then ulen else ulen + 1 + prec
  strReplace istr (strSlice istr ind0 (ind2 + 1)) (fmtFixed tlen prec val)

/-- The rounding increment `format_time` derives from the template: scan for
`[SS`, then for `[DSEC`; each hit sets `aprx = 1/(10**prec)` (so a `[DSEC`
token overwrites the increment derived from an `[SS` token). -/
def format_aprx (istr : List Char) : ℚ :=
  let a0 : ℚ := 99
  let a1 :=
    if -1 < strFind istr ['[', 'S', 'S'] then pydiv 1 (10 ^ find_precision istr ['S', 'S'])
    else a0
  if -1 < strFind istr ['[', 'D', 'S', 'E', 'C'] then
    pydiv 1 (10 ^ find_precision istr ['D', 'S', 'E', 'C'])
  else a1

/-- The substitution pass of `format_time`, after the calendar, day-of-year,
GPS-week and MJD renderings have been computed. -/
def format_subst (istr : List Char) (cal doy gps2 : List ℚ) (mjd : ℚ) : List Char :=
  match cal, doy, gps2 with
  | _ :: mm :: dd :: hh :: mn :: ss :: _, yyyy :: ddd :: _, gwkn :: gwkd :: _ =>
    let dsec := pyadd (hh * 3600 + mn * 60) ss
    let yy := yyyy_to_yy (pytrunc yyyy)
    let s1 := strReplace istr "[WWWW]".toList (padNum 4 (pytrunc gwkn))
    let s2 := strReplace s1 "[D]".toList (padNum 1 (pytrunc gwkd))
    let s3 := strReplace s2 "[YYYY]".toList (padNum 4 (pytrunc yyyy))
    let s4 := strReplace s3 "[YY]".toList (padNum 2 yy)
    let s5 := strReplace s4 "[DDD]".toList (padNum 3 (pytrunc ddd))
    let s6 := strReplace s5 "[MM]".toList (padNum 2 (pytrunc mm))
    let s7 := strReplace s6 "[DD]".toList (padNum 2 (pytrunc dd))
    let s8 := strReplace s7 "[HH]".toList (padNum 2 (pytrunc hh))
    let s9 := strReplace s8 "[MN]".toList (padNum 2 (pytrunc mn))
    let sA := if -1 < strFind s9 "[MJD".toList then format_float s9 "MJD".toList 5 mjd else s9
    let sB := if -1 < strFind sA "[SS".toList then format_float sA "SS".toList 2 ss else sA
    if -1 < strFind sB "[DSEC".toList then format_float sB "DSEC".toList 5 dsec else sB
  | _, _, _ => istr

/-- `format_time` from the source.  It takes the `mjd2` value of the
`PreciseTime` argument (`pe.get("mjd2")`), derives one rounding increment
from the template, renders the calendar, day-of-year and GPS-week forms of
that value at that increment (and the MJD form unrounded), and substitutes
the tokens. -/
def format_time (istr : List Char) (mjd2 : List ℚ) : List Char :=
  let aprx := format_aprx istr
  format_subst istr (mjd2_to_cal mjd2 aprx) (mjd2_to_doy mjd2 aprx)
    (mjd2_to_gps2 mjd2 aprx) (mjd2_to_mjd mjd2)

/-!  The `convtime` dispatcher. -/

/-- A Python value at the `convtime` boundary: a number or a list of numbers. -/
inductive PyVal where
  | num (q : ℚ)
  | lst (l : List ℚ)
deriving DecidableEq

/-- Failure modes of the `convtime` boundary.  The code itself never raises
a typed unknown-format error: `unknownFormat` is the error the spec
prescribes, present here only so that statements about it can be made;
`unboundLocal` models the `UnboundLocalError` Python raises when the
dispatcher falls through every `elif` and a never-assigned local
(`mjd2` or `ret`) is read; `badPayload` models `TypeError`/`IndexError`
on payloads of the wrong shape; `envDependent` marks the `sec`/`datetime`
adapters, which depend on the process-local timezone through the Python
`datetime` module and are left unmodelled (no claim depends on them). -/
inductive PyErr where
  | unknownFormat
  | unboundLocal
  | badPayload
  | envDependent
deriving DecidableEq

instance : DecidableEq (Except PyErr PyVal) := fun a b =>
  match a, b with
  | .ok x, .ok y =>
    if h : x = y then .isTrue (by rw [h]) else .isFalse (fun hc => h (Except.ok.inj hc))
  | .error x, .error y =>
    if h : x = y then .isTrue (by rw [h]) else .isFalse (fun hc => h (Except.error.inj hc))
  | .ok _, .error _ => .isFalse (fun hc => Except.noConfusion hc)
  | .error _, .ok _ => .isFalse (fun hc => Except.noConfusion hc)

/-- `format_list` from the source. -/
def format_list : List String :=
  ["mjd", "mjd2", "mjd3", "jd", "cal", "doy", "gps", "gps2", "sec", "year", "datetime"]

/-- The input half of `convtime`: convert `data` of format `ifmt` to `mjd2`.
An unknown `ifmt` matches no `elif`, leaving the local `mjd2` unassigned, so
Python raises `UnboundLocalError` when the output half reads it. -/
def convtimeIn (ifmt : String) (data : PyVal) : Except PyErr PyVal :=
  if ifmt = "mjd" then
    match data with
    | .num x => .ok (.lst (mjd_to_mjd2 x))
    | _ => .error .badPayload
  else if ifmt = "mjd2" then .ok data
  else if ifmt = "mjd3" then
    match data with
    | .lst (a :: b :: t) => .ok (.lst (mjd3_to_mjd2 (a :: b :: t)))
    | _ => .error .badPayload
  else if ifmt = "jd" then
    match data with
    | .num x => .ok (.lst (jd_to_mjd2 x))
    | _ => .error .badPayload
  else if ifmt = "cal" then
    match data with
    | .lst (a :: b :: c :: d :: e :: f :: t) =>
      .ok (.lst (cal_to_mjd2 (a :: b :: c :: d :: e :: f :: t)))
    | _ => .error .badPayload
  else if ifmt = "gps" then
    match data with
    | .lst (a :: b :: t) => .ok (.lst (gps_to_mjd2 (a :: b :: t)))
    | _ => .error .badPayload
  else if ifmt = "gps2" then
    match data with
    | .lst (a :: b :: c :: d :: e :: t) =>
      .ok (.lst (gps2_to_mjd2 (a :: b :: c :: d :: e :: t)))
    | _ => .error .badPayload
  else if ifmt = "doy" then
    match data with
    | .lst (a :: b :: c :: d :: e :: t) =>
      .ok (.lst (doy_to_mjd2 (a :: b :: c :: d :: e :: t)))
    | _ => .error .badPayload
  else if ifmt = "datetime" then .error .envDependent
  else if ifmt = "sec" then .error .envDependent
  else if ifmt = "year" then
    match data with
    | .num x => .ok (.lst (year_to_mjd2 x))
    | _ => .error .badPayload
  else .error .unboundLocal

/-- The output half of `convtime`: render the `mjd2` value in format `ofmt`.
An unknown `ofmt` matches no `elif` and Python raises `UnboundLocalError`
at `return ret`. -/
def convtimeOut (ofmt : String) (mjd2 : PyVal) (aprx : ℚ) : Except PyErr PyVal :=
  if ofmt = "mjd" then
    match mjd2 with
    | .lst (a :: b :: t) => .ok (.num (mjd2_to_mjd (a :: b :: t)))
    | _ => .error .badPayload
  else if ofmt = "mjd2" then .ok mjd2
  else if ofmt = "mjd3" then
    match mjd2 with
    | .lst (a :: b :: t) => .ok (.lst (mjd2_to_mjd3 (a :: b :: t)))
    | _ => .error .badPayload
  else if ofmt = "jd" then
    match mjd2 with
    | .lst (a :: b :: t) => .ok (.num (mjd2_to_jd (a :: b :: t)))
    | _ => .error .badPayload
  else if ofmt = "cal" then
    match mjd2 with
    | .lst (a :: b :: t) => .ok (.lst (mjd2_to_cal (a :: b :: t) aprx))
    | _ => .error .badPayload
  else if ofmt = "gps" then
    match mjd2 with
    | .lst (a :: b :: t) => .ok (.lst (mjd2_to_gps (a :: b :: t)))
    | _ => .error .badPayload
  else if ofmt = "gps2" then
    match mjd2 with
    | .lst (a :: b :: t) => .ok (.lst (mjd2_to_gps2 (a :: b :: t) aprx))
    | _ => .error .badPayload
  else if ofmt = "doy" then
    match mjd2 with
    | .lst (a :: b :: t) => .ok (.lst (mjd2_to_doy (a :: b :: t) aprx))
    | _ => .error .badPayload
  else if ofmt = "datetime" then .error .envDependent
  else if ofmt = "sec" then .error .envDependent
  else if ofmt = "year" then
    match mjd2 with
    | .lst (a :: b :: t) => .ok (.num (mjd2_to_year (a :: b :: t)))
    | _ => .error .badPayload
  else .error .unboundLocal

/-- `convtime` from the source: input processing to the canonical `mjd2`,
then output processing (the default rounding increment is `aprx = 99`). -/
def convtime (ifmt ofmt : String) (data : PyVal) (aprx : ℚ) : Except PyErr PyVal :=
  match convtimeIn ifmt data with
  | .ok mjd2 => convtimeOut ofmt mjd2 aprx
  | .error e => .error e

/-- The composite `A → mjd2 → B → mjd2 → A` of the cross-consistency
contract, at default rounding. -/
def roundtrip (A B : String) (v : PyVal) : Except PyErr PyVal :=
  match convtime A B v 99 with
  | .ok w => convtime B A w 99
  | .error e => .error e

/-- Spec-side condition (claim C4): the date `(y, m, d)` is on or after
1582-10-15, the Gregorian cutover. -/
def onOrAfterCutover (y m : ℤ) (d : ℚ) : Prop :=
  1582 < y ∨ (y = 1582 ∧ 10 < m) ∨ (y = 1582 ∧ m = 10 ∧ 15 ≤ d)

/-- Decimal digit character. -/
def dchar (n : ℕ) : Char := Char.ofNat (48 + n)

/-!  Correctness of the binary64 rounding model. -/

theorem pow2_eq_zpow (e : ℤ) : pow2 e = (2 : ℚ) ^ e := by
  unfold pow2
  rcases le_or_lt 0 e with h | h
  · rw [if_pos h, ← zpow_natCast, Int.toNat_of_nonneg h]
  · rw [if_neg (not_le.mpr h), ← zpow_natCast, Int.toNat_of_nonneg (by omega : 0 ≤ -e),
      ← zpow_neg, neg_neg]

theorem pow2_pos (e : ℤ) : 0 < pow2 e := by
  rw [pow2_eq_zpow]; exact zpow_pos (by norm_num) e

theorem pow2_add (a b : ℤ) : pow2 (a + b) = pow2 a * pow2 b := by
  simp only [pow2_eq_zpow]; exact zpow_add₀ (by norm_num) a b

theorem pow2_mono {a b : ℤ} (h : a ≤ b) : pow2 a ≤ pow2 b := by
  simp only [pow2_eq_zpow]
  exact zpow_le_zpow_right₀ (by norm_num) h

theorem pow2_natCast (n : ℕ) : pow2 (n : ℤ) = ((2 ^ n : ℕ) : ℚ) := by
  rw [pow2_eq_zpow, zpow_natCast, Nat.cast_pow, Nat.cast_ofNat]

theorem nlog2Go_spec :
    ∀ fuel n, 0 < n → n < 2 ^ fuel →
      2 ^ nlog2Go fuel n ≤ n ∧ n < 2 ^ (nlog2Go fuel n + 1) := by
  intro fuel
  induction fuel with
  | zero => intro n h1 h2; omega
  | succ f ih =>
    intro n h1 h2
    unfold nlog2Go
    rcases le_or_lt n 1 with hn | hn
    · have : n = 1 := by omega
      simp [this]
    · rw [if_neg (by omega)]
      have hhalf : 0 < n / 2 := by omega
      have hlt : n / 2 < 2 ^ f := by
        have h2' : n < 2 ^ f * 2 := by rw [← pow_succ]; exact h2
        omega
      obtain ⟨ih1, ih2⟩ := ih (n / 2) hhalf hlt
      have e1 : 2 ^ (nlog2Go f (n / 2) + 1) = 2 ^ nlog2Go f (n / 2) * 2 := pow_succ 2 _
      have e2 : 2 ^ (nlog2Go f (n / 2) + 1 + 1) = 2 ^ (nlog2Go f (n / 2) + 1) * 2 :=
        pow_succ 2 _
      omega

theorem nlog2_spec (n : ℕ) (h : 0 < n) :
    2 ^ nlog2 n ≤ n ∧ n < 2 ^ (nlog2 n + 1) :=
  nlog2Go_spec n n h (Nat.lt_two_pow n)

theorem pow2_sub (a b : ℤ) : pow2 (a - b) = pow2 a / pow2 b := by
  simp only [pow2_eq_zpow]; exact zpow_sub₀ (by norm_num) a b

theorem pow2_intCast (n : ℕ) : pow2 (n : ℤ) = (2 : ℚ) ^ n := by
  rw [pow2_eq_zpow, zpow_natCast]

theorem ratLog2_spec (q : ℚ) (hq : 0 < q) :
    pow2 (ratLog2 q) ≤ q ∧ q < pow2 (ratLog2 q + 1) := by
  have hnum : 0 < q.num := Rat.num_pos.mpr hq
  have hden : 0 < q.den := q.den_pos
  obtain ⟨hA1, hA2⟩ := nlog2_spec q.num.natAbs (Int.natAbs_pos.mpr (by omega))
  obtain ⟨hB1, hB2⟩ := nlog2_spec q.den hden
  set α := nlog2 q.num.natAbs with hα
  set β := nlog2 q.den with hβ
  have ha1 : (2 : ℚ) ^ α ≤ (q.num.natAbs : ℚ) := by exact_mod_cast hA1
  have ha2 : (q.num.natAbs : ℚ) < 2 ^ (α + 1) := by exact_mod_cast hA2
  have hb1 : (2 : ℚ) ^ β ≤ (q.den : ℚ) := by exact_mod_cast hB1
  have hb2 : ((q.den : ℚ)) < 2 ^ (β + 1) := by exact_mod_cast hB2
  have hdq : (0 : ℚ) < (q.den : ℚ) := by exact_mod_cast hden
  have hnn : ((q.num.natAbs : ℕ) : ℚ) = ((q.num : ℤ) : ℚ) := by
    rw [← Int.cast_natCast, Int.natAbs_of_nonneg (le_of_lt hnum)]
  have hq_eq : q = (q.num.natAbs : ℚ) / (q.den : ℚ) := by
    rw [hnn, Rat.num_div_den]
  have hp : ∀ n : ℕ, pow2 (n : ℤ) = (2 : ℚ) ^ n := pow2_intCast
  have hlow : pow2 ((α : ℤ) - β - 1) < q := by
    have e : ((α : ℤ) - β - 1) = (α : ℤ) - ((β + 1 : ℕ) : ℤ) := by push_cast; ring
    rw [e, pow2_sub, hp α, hp (β + 1), hq_eq]
    calc (2 : ℚ) ^ α / 2 ^ (β + 1) < 2 ^ α / (q.den : ℚ) := by gcongr
    _ ≤ (q.num.natAbs : ℚ) / (q.den : ℚ) := by gcongr
  have hhigh : q < pow2 ((α : ℤ) - β + 1) := by
    have e : ((α : ℤ) - β + 1) = ((α + 1 : ℕ) : ℤ) - (β : ℤ) := by push_cast; ring
    rw [e, pow2_sub, hp (α + 1), hp β, hq_eq]
    calc (q.num.natAbs : ℚ) / (q.den : ℚ) < 2 ^ (α + 1) / (q.den : ℚ) := by gcongr
    _ ≤ 2 ^ (α + 1) / 2 ^ β := by gcongr
  have habs : |q| = q := abs_of_pos hq
  have hdef : ratLog2 q =
      if pow2 (((α : ℤ) - β - 1) + 1) ≤ |q| then ((α : ℤ) - β - 1) + 1
      else ((α : ℤ) - β - 1) := rfl
  rw [hdef, habs]
  by_cases h : pow2 (((α : ℤ) - β - 1) + 1) ≤ q
  · rw [if_pos h]
    refine ⟨h, ?_⟩
    have e : (α : ℤ) - β - 1 + 1 + 1 = (α : ℤ) - β + 1 := by ring
    rw [e]; exact hhigh
  · rw [if_neg h]
    exact ⟨le_of_lt hlow, not_le.mp h⟩

theorem rhe_dist (y : ℚ) : |(rhe y : ℚ) - y| ≤ 1 / 2 := by
  have h1 : (⌊y⌋ : ℚ) ≤ y := Int.floor_le y
  have h2 : y < ⌊y⌋ + 1 := Int.lt_floor_add_one y
  by_cases hc1 : y - (⌊y⌋ : ℚ) < 1 / 2
  · have he : rhe y = ⌊y⌋ := by simp only [rhe, if_pos hc1]
    rw [he, abs_le]; constructor <;> linarith
  · by_cases hc2 : (1 : ℚ) / 2 < y - (⌊y⌋ : ℚ)
    · have he : rhe y = ⌊y⌋ + 1 := by simp only [rhe, if_neg hc1, if_pos hc2]
      rw [he, abs_le]; push_cast; constructor <;> linarith
    · have heq : y - (⌊y⌋ : ℚ) = 1 / 2 := le_antisymm (not_lt.mp hc2) (not_lt.mp hc1)
      by_cases hc3 : ⌊y⌋ % 2 = 0
      · have he : rhe y = ⌊y⌋ := by simp only [rhe, if_neg hc1, if_neg hc2, if_pos hc3]
        rw [he, abs_le]; constructor <;> linarith
      · have he : rhe y = ⌊y⌋ + 1 := by simp only [rhe, if_neg hc1, if_neg hc2, if_neg hc3]
        rw [he, abs_le]; push_cast; constructor <;> linarith

theorem rhe_intCast (k : ℤ) : rhe (k : ℚ) = k := by
  simp only [rhe, Int.floor_intCast, sub_self]
  norm_num

theorem fl_zero : fl 0 = 0 := by unfold fl; simp

/-- Structure of `fl` at a positive argument: a mantissa in `[2^52, 2^53]`
within half a unit of the scaled value. -/
theorem fl_pos_mantissa (q : ℚ) (hq : 0 < q) :
    fl q = (rhe (q * pow2 (52 - ratLog2 q)) : ℚ) * pow2 (ratLog2 q - 52) ∧
      (2 ^ 52 : ℤ) ≤ rhe (q * pow2 (52 - ratLog2 q)) ∧
      rhe (q * pow2 (52 - ratLog2 q)) ≤ 2 ^ 53 := by
  have hq0 : ¬ q = 0 := ne_of_gt hq
  have hqn : ¬ q < 0 := not_lt.mpr (le_of_lt hq)
  have hfl0 : fl q = (rhe (q * pow2 (52 - ratLog2 q)) : ℚ) * pow2 (ratLog2 q - 52) := by
    simp only [fl, if_neg hq0, if_neg hqn, abs_of_pos hq, one_mul]
  obtain ⟨hL, hH⟩ := ratLog2_spec q hq
  set e := ratLog2 q with he
  set y := q * pow2 (52 - e) with hy
  have hylo : pow2 52 ≤ y := by
    calc pow2 52 = pow2 e * pow2 (52 - e) := by rw [← pow2_add]; congr 1; ring
    _ ≤ q * pow2 (52 - e) := mul_le_mul_of_nonneg_right hL (le_of_lt (pow2_pos _))
  have hyhi : y < pow2 53 := by
    calc y < pow2 (e + 1) * pow2 (52 - e) := mul_lt_mul_of_pos_right hH (pow2_pos _)
    _ = pow2 53 := by rw [← pow2_add]; congr 1; ring
  have h52 : pow2 52 = ((2 ^ 52 : ℤ) : ℚ) := by rw [pow2_eq_zpow]; norm_num
  have h53 : pow2 53 = ((2 ^ 53 : ℤ) : ℚ) := by rw [pow2_eq_zpow]; norm_num
  have hd := rhe_dist y
  rw [abs_le] at hd
  have hylo' : ((2 ^ 52 : ℤ) : ℚ) ≤ y := h52 ▸ hylo
  have hyhi' : y < ((2 ^ 53 : ℤ) : ℚ) := h53 ▸ hyhi
  have hmlo : (2 ^ 52 : ℤ) ≤ rhe y := by
    have hQ : ((2 ^ 52 - 1 : ℤ) : ℚ) < (rhe y : ℚ) := by push_cast; push_cast at hylo'; linarith [hd.1]
    have hZ : (2 ^ 52 - 1 : ℤ) < rhe y := by exact_mod_cast hQ
    omega
  have hmhi : rhe y ≤ 2 ^ 53 := by
    have hQ : (rhe y : ℚ) < ((2 ^ 53 + 1 : ℤ) : ℚ) := by push_cast; push_cast at hyhi'; linarith [hd.2]
    have hZ : rhe y < 2 ^ 53 + 1 := by exact_mod_cast hQ
    omega
  exact ⟨hfl0, hmlo, hmhi⟩

theorem fl_pos_bounds (q : ℚ) (hq : 0 < q) :
    pow2 (ratLog2 q) ≤ fl q ∧ fl q ≤ pow2 (ratLog2 q + 1) ∧
      |fl q - q| ≤ pow2 (ratLog2 q - 53) := by
  obtain ⟨hfl, hmlo, hmhi⟩ := fl_pos_mantissa q hq
  set e := ratLog2 q with he
  set m := rhe (q * pow2 (52 - e)) with hm
  have hp := pow2_pos (e - 52)
  have h52 : pow2 52 = ((2 ^ 52 : ℤ) : ℚ) := by rw [pow2_eq_zpow]; norm_num
  have h53 : pow2 53 = ((2 ^ 53 : ℤ) : ℚ) := by rw [pow2_eq_zpow]; norm_num
  have hmlo' : pow2 52 ≤ (m : ℚ) := by rw [h52]; exact_mod_cast hmlo
  have hmhi' : (m : ℚ) ≤ pow2 53 := by rw [h53]; exact_mod_cast hmhi
  refine ⟨?_, ?_, ?_⟩
  · rw [hfl]
    calc pow2 e = pow2 52 * pow2 (e - 52) := by rw [← pow2_add]; congr 1; ring
    _ ≤ (m : ℚ) * pow2 (e - 52) := mul_le_mul_of_nonneg_right hmlo' (le_of_lt hp)
  · rw [hfl]
    calc (m : ℚ) * pow2 (e - 52) ≤ pow2 53 * pow2 (e - 52) :=
          mul_le_mul_of_nonneg_right hmhi' (le_of_lt hp)
    _ = pow2 (e + 1) := by rw [← pow2_add]; congr 1; ring
  · have hd := rhe_dist (q * pow2 (52 - e))
    have hqe : q = (q * pow2 (52 - e)) * pow2 (e - 52) := by
      rw [mul_assoc, ← pow2_add]
      have h0 : (52 - e) + (e - 52) = 0 := by ring
      have h1 : pow2 0 = 1 := by rw [pow2_eq_zpow]; norm_num
      rw [h0, h1, mul_one]
    calc |fl q - q| = |(m : ℚ) - q * pow2 (52 - e)| * pow2 (e - 52) := by
          conv_lhs => rw [hfl, hqe]
          rw [← sub_mul, abs_mul, abs_of_pos hp]
    _ ≤ (1 / 2) * pow2 (e - 52) := mul_le_mul_of_nonneg_right hd (le_of_lt hp)
    _ = pow2 (e - 53) := by
          have h2 : pow2 (e - 52) = 2 * pow2 (e - 53) := by
            have h3 : (2 : ℚ) = pow2 1 := by rw [pow2_eq_zpow]; norm_num
            rw [h3, ← pow2_add]; congr 1; ring
          rw [h2]; ring

theorem fl_nonneg (q : ℚ) (h : 0 ≤ q) : 0 ≤ fl q := by
  rcases eq_or_lt_of_le h with h0 | h0
  · rw [← h0, fl_zero]
  · have := (fl_pos_bounds q h0).1
    linarith [pow2_pos (ratLog2 q)]

theorem fl_approx (q : ℚ) (h : 0 ≤ q) : |fl q - q| ≤ q * pow2 (-53) := by
  rcases eq_or_lt_of_le h with h0 | h0
  · simp [← h0, fl_zero]
  · obtain ⟨hL, _⟩ := ratLog2_spec q h0
    have hb := (fl_pos_bounds q h0).2.2
    calc |fl q - q| ≤ pow2 (ratLog2 q - 53) := hb
    _ = pow2 (ratLog2 q) * pow2 (-53) := by rw [sub_eq_add_neg, pow2_add]
    _ ≤ q * pow2 (-53) := mul_le_mul_of_nonneg_right hL (le_of_lt (pow2_pos _))

theorem pow2_lt_pow2 {a b : ℤ} (h : pow2 a < pow2 b) : a < b := by
  by_contra hc
  exact absurd (pow2_mono (not_lt.mp hc)) (not_le.mpr h)

/-- A value `n * 2 ^ t` with a mantissa below `2 ^ 53` is exactly
representable: `fl` is the identity on it. -/
theorem fl_rep (n t : ℤ) (hn : 0 < n) (hb : n < 2 ^ 53) :
    fl ((n : ℚ) * pow2 t) = (n : ℚ) * pow2 t := by
  set q := (n : ℚ) * pow2 t with hqdef
  have hnQ : (0 : ℚ) < (n : ℚ) := by exact_mod_cast hn
  have hq0 : 0 < q := mul_pos hnQ (pow2_pos t)
  obtain ⟨hfl, hmlo, hmhi⟩ := fl_pos_mantissa q hq0
  obtain ⟨hL, hH⟩ := ratLog2_spec q hq0
  set e := ratLog2 q with he
  have hte : t ≤ e := by
    have h1 : pow2 t ≤ q := by
      calc pow2 t = 1 * pow2 t := (one_mul _).symm
      _ ≤ (n : ℚ) * pow2 t := by
          exact mul_le_mul_of_nonneg_right (by exact_mod_cast hn) (le_of_lt (pow2_pos t))
    have := pow2_lt_pow2 (lt_of_le_of_lt h1 hH)
    omega
  have het : e < t + 53 := by
    have h1 : q < pow2 (t + 53) := by
      have hn53 : (n : ℚ) < pow2 53 := by
        rw [pow2_eq_zpow]; exact_mod_cast hb
      calc q = (n : ℚ) * pow2 t := hqdef
      _ < pow2 53 * pow2 t := mul_lt_mul_of_pos_right hn53 (pow2_pos t)
      _ = pow2 (t + 53) := by rw [← pow2_add]; congr 1; ring
    have := pow2_lt_pow2 (lt_of_le_of_lt hL h1)
    omega
  -- `q * 2 ^ (52 - e)` is the integer `n * 2 ^ (t + 52 - e)`
  have hd0 : 0 ≤ t + 52 - e := by omega
  have hyint : q * pow2 (52 - e) = ((n * 2 ^ (t + 52 - e).toNat : ℤ) : ℚ) := by
    push_cast
    rw [hqdef, mul_assoc, ← pow2_add]
    congr 1
    rw [← pow2_intCast, Int.toNat_of_nonneg hd0]
    congr 1
    omega
  have hrhe : rhe (q * pow2 (52 - e)) = n * 2 ^ (t + 52 - e).toNat := by
    rw [hyint, rhe_intCast]
  rw [hfl, hrhe]
  push_cast
  rw [mul_assoc, ← pow2_intCast, ← pow2_add, Int.toNat_of_nonneg hd0]
  congr 1
  congr 1
  omega

/-- `fl` is the identity on any value of the form `n * 2 ^ t`, `0 < n < 2^53`. -/
theorem fl_rep' (x : ℚ) (n t : ℤ) (hx : x = (n : ℚ) * pow2 t) (hn : 0 < n)
    (hb : n < 2 ^ 53) : fl x = x := by
  rw [hx]; exact fl_rep n t hn hb

theorem ratLog2_neg (q : ℚ) : ratLog2 (-q) = ratLog2 q := by
  unfold ratLog2
  have h1 : (-q).num.natAbs = q.num.natAbs := by
    simp [Int.natAbs_neg]
  have h2 : (-q).den = q.den := by simp
  rw [h1, h2, abs_neg]

theorem fl_neg (q : ℚ) : fl (-q) = - fl q := by
  by_cases h0 : q = 0
  · rw [h0, neg_zero, fl_zero, neg_zero]
  · have hn0 : (-q) ≠ 0 := neg_ne_zero.mpr h0
    unfold fl
    rw [if_neg hn0, if_neg h0]
    simp only [ratLog2_neg, abs_neg]
    rcases lt_trichotomy q 0 with hq | hq | hq
    · rw [if_neg (by linarith : ¬ -q < 0), if_pos hq]; ring
    · exact absurd hq h0
    · rw [if_pos (by linarith : -q < 0), if_neg (by linarith : ¬ q < 0)]; ring

/-- Int → float conversion is exact below `2^53` in magnitude. -/
theorem fl_intCast (n : ℤ) (hb : |n| < 2 ^ 53) : fl (n : ℚ) = (n : ℚ) := by
  have hpow0 : (pow2 (0 : ℤ) : ℚ) = 1 := by rw [pow2_eq_zpow]; norm_num
  have hb' := abs_lt.mp hb
  rcases lt_trichotomy n 0 with h | h | h
  · have h1 : fl ((-n : ℤ) : ℚ) = ((-n : ℤ) : ℚ) :=
      fl_rep' _ (-n) 0 (by rw [hpow0]; ring) (by omega) (by omega)
    have h2 : ((n : ℤ) : ℚ) = -(((-n : ℤ)) : ℚ) := by push_cast; ring
    rw [h2, fl_neg, h1]
  · rw [h]; simpa using fl_zero
  · exact fl_rep' _ n 0 (by rw [hpow0]; ring) h (by omega)

theorem fl_idem (q : ℚ) (h : 0 ≤ q) : IsDbl (fl q) := by
  rcases eq_or_lt_of_le h with h0 | h0
  · rw [← h0]; unfold IsDbl; rw [fl_zero, fl_zero]
  · obtain ⟨hfl, hmlo, hmhi⟩ := fl_pos_mantissa q h0
    unfold IsDbl
    rcases eq_or_lt_of_le hmhi with hm53 | hm53
    · refine fl_rep' _ 1 (ratLog2 q + 1) ?_ (by norm_num) (by norm_num)
      rw [hfl, hm53]
      push_cast
      rw [show (9007199254740992 : ℚ) = pow2 53 by rw [pow2_eq_zpow]; norm_num, ← pow2_add,
        show (53 + (ratLog2 q - 52)) = ratLog2 q + 1 by ring, one_mul]
    · exact fl_rep' _ _ (ratLog2 q - 52) hfl (by omega) hm53

theorem fl_le_one (q : ℚ) (h0 : 0 ≤ q) (h1 : q ≤ 1) : fl q ≤ 1 := by
  rcases eq_or_lt_of_le h0 with hq0 | hq0
  · rw [← hq0, fl_zero]; norm_num
  · obtain ⟨hL, hH⟩ := ratLog2_spec q hq0
    rcases lt_or_le (ratLog2 q) 0 with he | he
    · have := (fl_pos_bounds q hq0).2.1
      calc fl q ≤ pow2 (ratLog2 q + 1) := this
      _ ≤ pow2 0 := pow2_mono (by omega)
      _ = 1 := by rw [pow2_eq_zpow]; norm_num
    · have h1' : (1 : ℚ) ≤ pow2 (ratLog2 q) := by
        calc (1 : ℚ) = pow2 0 := by rw [pow2_eq_zpow]; norm_num
        _ ≤ pow2 (ratLog2 q) := pow2_mono he
      have hq1 : q = 1 := le_antisymm h1 (le_trans h1' hL)
      have hfl1 : fl 1 = 1 :=
        fl_rep' 1 1 0 (by rw [pow2_eq_zpow]; norm_num) (by norm_num) (by norm_num)
      rw [hq1, hfl1]

/-- A positive double is an integer mantissa in `[2^52, 2^53]` times a power
of two placed by its exponent. -/
theorem isDbl_mantissa (v : ℚ) (hd : IsDbl v) (h0 : 0 < v) :
    ∃ m : ℤ, v = (m : ℚ) * pow2 (ratLog2 v - 52) ∧ (2 ^ 52 : ℤ) ≤ m ∧ m ≤ 2 ^ 53 := by
  obtain ⟨hfl, hmlo, hmhi⟩ := fl_pos_mantissa v h0
  refine ⟨_, ?_, hmlo, hmhi⟩
  nth_rewrite 1 [← hd]
  exact hfl

/-- A double strictly below a grid value `c` sitting in the binade
`(2^E, 2^(E+1)]` is at least one grid step below it. -/
theorem dbl_lt_imp_le (v c : ℚ) (E kc : ℤ) (hd : IsDbl v) (h0 : 0 < v) (hvc : v < c)
    (hcE : c ≤ pow2 (E + 1)) (hEc : pow2 E + pow2 (E - 52) ≤ c)
    (hgrid : c = (kc : ℚ) * pow2 (E - 52)) :
    v ≤ c - pow2 (E - 52) := by
  obtain ⟨hL, hH⟩ := ratLog2_spec v h0
  rcases lt_or_le (ratLog2 v) E with hcase | hcase
  · have h1 : pow2 (ratLog2 v + 1) ≤ pow2 E := pow2_mono (by omega)
    linarith
  · have heE : ratLog2 v = E := by
      have h1 : pow2 (ratLog2 v) < pow2 (E + 1) :=
        lt_of_le_of_lt hL (lt_of_lt_of_le hvc hcE)
      have := pow2_lt_pow2 h1
      omega
    obtain ⟨m, hm, hmlo, hmhi⟩ := isDbl_mantissa v hd h0
    rw [heE] at hm
    have hδ := pow2_pos (E - 52)
    have hmkc : (m : ℚ) < (kc : ℚ) := by
      have h2 : (m : ℚ) * pow2 (E - 52) < (kc : ℚ) * pow2 (E - 52) := by
        rw [← hm, ← hgrid]; exact hvc
      exact (mul_lt_mul_right hδ).mp h2
    have hmkZ : m < kc := by exact_mod_cast hmkc
    have hm1 : (m : ℚ) ≤ (kc : ℚ) - 1 := by
      have : m ≤ kc - 1 := by omega
      exact_mod_cast this
    calc v = (m : ℚ) * pow2 (E - 52) := hm
    _ ≤ ((kc : ℚ) - 1) * pow2 (E - 52) := mul_le_mul_of_nonneg_right hm1 (le_of_lt hδ)
    _ = (kc : ℚ) * pow2 (E - 52) - pow2 (E - 52) := by ring
    _ = c - pow2 (E - 52) := by rw [← hgrid]

theorem dbl_lt_one (v : ℚ) (hd : IsDbl v) (h0 : 0 ≤ v) (h1 : v < 1) :
    v ≤ 1 - pow2 (-53) := by
  rcases eq_or_lt_of_le h0 with h00 | h00
  · rw [← h00]
    have : pow2 (-53) ≤ pow2 0 := pow2_mono (by omega)
    have h2 : pow2 (0 : ℤ) = 1 := by rw [pow2_eq_zpow]; norm_num
    linarith
  · have h2 := dbl_lt_imp_le v 1 (-1) (2 ^ 53) hd h00 h1 (by decide) (by decide) (by decide)
    calc v ≤ 1 - pow2 (-1 - 52) := h2
    _ = 1 - pow2 (-53) := by norm_num

/-- The fractional part of a double below `2^52` is at most `1 - 2^-53`. -/
theorem frac_le (v : ℚ) (hd : IsDbl v) (h0 : 0 ≤ v) (hb : v < pow2 52) :
    0 ≤ v - (pytrunc v : ℚ) ∧ v - (pytrunc v : ℚ) ≤ 1 - pow2 (-53) := by
  have htr : pytrunc v = ⌊v⌋ := if_pos h0
  rw [htr]
  have hfle := Int.floor_le v
  refine ⟨by linarith, ?_⟩
  rcases lt_or_le v 1 with hv1 | hv1
  · have hz : ⌊v⌋ = 0 := Int.floor_eq_zero_iff.mpr ⟨h0, hv1⟩
    rw [hz, Int.cast_zero, sub_zero]
    exact dbl_lt_one v hd h0 hv1
  · have hv0 : 0 < v := lt_of_lt_of_le one_pos hv1
    obtain ⟨m, hm, hmlo, hmhi⟩ := isDbl_mantissa v hd hv0
    obtain ⟨hL, hH⟩ := ratLog2_spec v hv0
    set e := ratLog2 v with he
    have he0 : 0 ≤ e := by
      have h1 : pow2 0 < pow2 (e + 1) := by
        have hp0 : pow2 (0 : ℤ) = 1 := by decide
        linarith
      have := pow2_lt_pow2 h1
      omega
    have he52 : e ≤ 51 := by
      have := pow2_lt_pow2 (lt_of_le_of_lt hL hb)
      omega
    set d : ℕ := (52 - e).toNat with hdd
    have hd52 : (d : ℤ) = 52 - e := Int.toNat_of_nonneg (by omega)
    have hpow : ((2 ^ d : ℤ) : ℚ) * pow2 (e - 52) = 1 := by
      push_cast
      rw [show ((2 : ℚ) ^ d) = pow2 (d : ℤ) by rw [pow2_intCast], ← pow2_add,
        show ((d : ℤ) + (e - 52)) = 0 by omega]
      decide
    have hpow2 : (2 : ℚ) ^ d * pow2 (e - 52) = 1 := by push_cast at hpow; exact hpow
    have hKfrac : v - (⌊v⌋ : ℚ) = ((m - ⌊v⌋ * 2 ^ d : ℤ) : ℚ) * pow2 (e - 52) := by
      push_cast
      linear_combination hm + (⌊v⌋ : ℚ) * hpow2
    have hδ := pow2_pos (e - 52)
    have hKlt : (m - ⌊v⌋ * 2 ^ d : ℤ) < 2 ^ d := by
      by_contra hcon
      push_neg at hcon
      have hc : ((2 ^ d : ℤ) : ℚ) ≤ ((m - ⌊v⌋ * 2 ^ d : ℤ) : ℚ) := by exact_mod_cast hcon
      have h2 : (1 : ℚ) ≤ v - (⌊v⌋ : ℚ) := by
        rw [hKfrac, ← hpow]
        exact mul_le_mul_of_nonneg_right hc (le_of_lt hδ)
      linarith [Int.lt_floor_add_one v]
    have hKle : ((m - ⌊v⌋ * 2 ^ d : ℤ) : ℚ) ≤ ((2 ^ d : ℤ) : ℚ) - 1 := by
      have h1 : m - ⌊v⌋ * 2 ^ d ≤ 2 ^ d - 1 := by omega
      have h2 : ((m - ⌊v⌋ * 2 ^ d : ℤ) : ℚ) ≤ ((2 ^ d - 1 : ℤ) : ℚ) := by exact_mod_cast h1
      push_cast at h2 ⊢
      linarith
    have hmain : v - (⌊v⌋ : ℚ) ≤ 1 - pow2 (e - 52) := by
      rw [hKfrac]
      calc ((m - ⌊v⌋ * 2 ^ d : ℤ) : ℚ) * pow2 (e - 52)
          ≤ (((2 ^ d : ℤ) : ℚ) - 1) * pow2 (e - 52) :=
            mul_le_mul_of_nonneg_right hKle (le_of_lt hδ)
      _ = ((2 ^ d : ℤ) : ℚ) * pow2 (e - 52) - pow2 (e - 52) := by ring
      _ = 1 - pow2 (e - 52) := by rw [hpow]
    have hstep : pow2 (-53) ≤ pow2 (e - 52) := pow2_mono (by omega)
    linarith

theorem pytrunc_nonneg (q : ℚ) (h : 0 ≤ q) : pytrunc q = ⌊q⌋ := if_pos h

/-- Truncated float division of nonneg ints below `2^53` equals exact
integer floor division. -/
theorem pytrunc_pydiv_int (n d : ℤ) (hn : 0 ≤ n) (hb : n < 2 ^ 53) (hd : 0 < d) :
    pytrunc (pydiv (n : ℚ) (d : ℚ)) = ⌊(n : ℚ) / (d : ℚ)⌋ := by
  have hdQ : (0 : ℚ) < (d : ℚ) := by exact_mod_cast hd
  set x := (n : ℚ) / (d : ℚ) with hx
  have hx0 : 0 ≤ x := div_nonneg (by exact_mod_cast hn) (le_of_lt hdQ)
  have hpy : pydiv (n : ℚ) (d : ℚ) = fl x := rfl
  rw [hpy]
  rcases em (d ∣ n) with hdvd | hndvd
  · obtain ⟨k, hk⟩ := hdvd
    have hk0 : 0 ≤ k := by nlinarith
    have hkb : k < 2 ^ 53 := by nlinarith
    have hxk : x = (k : ℚ) := by
      rw [hx, hk]
      push_cast
      rw [mul_comm, mul_div_assoc, div_self (ne_of_gt hdQ), mul_one]
    rcases eq_or_lt_of_le hk0 with hk00 | hk00
    · rw [hxk, ← hk00]
      norm_num [fl_zero, pytrunc]
    · have hflx : fl x = x := by
        refine fl_rep' x k 0 ?_ hk00 hkb
        rw [hxk]
        have : pow2 (0 : ℤ) = 1 := by decide
        rw [this, mul_one]
      rw [hflx, pytrunc_nonneg x hx0]
  · set r := n % d with hr
    set q0 := n / d with hq0
    have hr0 : 0 ≤ r := Int.emod_nonneg n (ne_of_gt hd)
    have hrd : r < d := Int.emod_lt_of_pos n hd
    have hr1 : 1 ≤ r := by
      rcases eq_or_lt_of_le hr0 with h00 | h00
      · exact absurd (Int.dvd_of_emod_eq_zero h00.symm) hndvd
      · omega
    have hnd : n = d * q0 + r := (Int.ediv_add_emod n d).symm
    have hq00 : 0 ≤ q0 := Int.ediv_nonneg hn (le_of_lt hd)
    have hxval : x = (q0 : ℚ) + (r : ℚ) / (d : ℚ) := by
      rw [hx, show ((n : ℚ)) = (d : ℚ) * (q0 : ℚ) + (r : ℚ) by exact_mod_cast hnd]
      field_simp
      ring
    have hfrac0 : 0 ≤ (r : ℚ) / (d : ℚ) :=
      div_nonneg (by exact_mod_cast hr0) (le_of_lt hdQ)
    have hfrac1 : (r : ℚ) / (d : ℚ) < 1 :=
      (div_lt_one hdQ).mpr (by exact_mod_cast hrd)
    have h1d : 1 / (d : ℚ) ≤ (r : ℚ) / (d : ℚ) := by
      gcongr
      exact_mod_cast hr1
    have hrp1 : (r : ℚ) / (d : ℚ) + 1 / (d : ℚ) ≤ 1 := by
      have h2 : ((r + 1 : ℤ) : ℚ) / (d : ℚ) ≤ 1 := by
        apply (div_le_one hdQ).mpr
        exact_mod_cast hrd
      calc (r : ℚ) / (d : ℚ) + 1 / (d : ℚ) = ((r + 1 : ℤ) : ℚ) / (d : ℚ) := by
            push_cast; ring
      _ ≤ 1 := h2
    have herr := fl_approx x hx0
    rw [abs_le] at herr
    have hxb : x * pow2 (-53) < 1 / (d : ℚ) := by
      have hp : pow2 (-53) = 1 / 2 ^ 53 := by decide
      rw [hp, hx, div_mul_div_comm, mul_one]
      rw [div_lt_div_iff₀ (by positivity) hdQ]
      have hnQ : (n : ℚ) < 2 ^ 53 := by exact_mod_cast hb
      nlinarith
    have hlow : (q0 : ℚ) ≤ fl x := by
      have h2 : x - x * pow2 (-53) ≤ fl x := by linarith [herr.1]
      linarith
    have hhigh : fl x < (q0 : ℚ) + 1 := by
      have h2 : fl x ≤ x + x * pow2 (-53) := by linarith [herr.2]
      linarith
    have hfl0 : 0 ≤ fl x := fl_nonneg x hx0
    rw [pytrunc_nonneg _ hfl0]
    have hfx : ⌊x⌋ = q0 := Int.floor_eq_iff.mpr ⟨by linarith, by linarith⟩
    have hffx : ⌊fl x⌋ = q0 := Int.floor_eq_iff.mpr ⟨hlow, by linarith [hhigh]⟩
    rw [hffx, hfx]

/-!  The claims. -/

set_option maxRecDepth 1000000

/-- C6: `hmsm_to_days(6,0,0,0)` is exactly `0.25`, and `days_to_hmsm`
follows IEEE-754 double semantics of the `*24`/`*60`/`*60` chain with
fractional splits, so that `days_to_hmsm(0.1) = (2, 24, 0,
1.2789769243681803e-06)` exactly (each decimal literal denotes the binary64
value nearest to it). -/
theorem C6_hmsm_values :
    hmsm_to_days 6 0 0 0 = 1 / 4 ∧
    days_to_hmsm (fl (1 / 10)) = (2, 24, 0, fl (12789769243681803 / 10 ^ 22)) := by
  decide

/-- C2 counterexample: at `day = 57022`, `frac = -1.0`, `clean_mjd2` returns
the fraction `1.0`, so the claimed invariant `0 ≤ frac < 1` fails; and at
`day = 1`, `frac = -(2^53 + 2).0`, the int `tmp = -(2^53 + 3)` rounds to the
double `-(2^53 + 4)` (ties to even), the returned fraction is `2.0` and the
sum `day + frac` shifts by a full unit — so no fraction bound below 2 and no
`2^-53` sum bound holds for unrestricted inputs either. -/
theorem C2_counterexample :
    clean_mjd2 [57022, -1] = [57020, 1] ∧
    ¬ (clean_mjd2 [57022, -1]).getD 1 0 < 1 ∧
    (clean_mjd2 [1, -(2 ^ 53 + 2)]).getD 1 0 = 2 ∧
    |(clean_mjd2 [1, -(2 ^ 53 + 2)]).getD 0 0 + (clean_mjd2 [1, -(2 ^ 53 + 2)]).getD 1 0
      - (1 + -(2 ^ 53 + 2))| = 1 := by
  decide

/-- C5 counterexample: at `jd = 2299160.75` the code takes the Gregorian
branch (`int(jd + 0.5) = 2299161 > 2299160`), although the integer part of
the input, `⌊2299160.75⌋ = 2299160`, does not exceed 2299160 — refuting the
claim that the branch is taken exactly when the integer part of the input
exceeds 2299160. -/
theorem C5_counterexample :
    jd_to_date_greg (9196643 / 4) = true ∧ ¬ 2299160 < ⌊(9196643 / 4 : ℚ)⌋ := by
  decide

/-- C7 counterexample: at `mjd2 = [44243, 0]` (one day before the GPS
epoch), `mjd2_to_gps2` computes week 0 — truncation toward zero of
`-1/7` — whereas `⌊(44243 - 44244)/7⌋ = -1`, refuting `week =
floor((mjd - 44244)/7)` for every MJD2 value. -/
theorem C7_counterexample :
    (mjd2_to_gps2 [44243, 0] 99).headD 0 = 0 ∧
    ⌊((44243 : ℚ) - 44244) / 7⌋ = -1 ∧
    ¬ (mjd2_to_gps2 [44243, 0] 99).headD 0 = (⌊((44243 : ℚ) - 44244) / 7⌋ : ℚ) := by
  decide

/-- C8 counterexample: for the template `"[SS9] [DSEC3]"` the code derives
`aprx = 1/10**3` (the `[DSEC` scan overwrites the `[SS` scan), not the
claimed `10^-k` for the maximum requested precision `k = 9`; consequently a
time one nanosecond past midnight renders with its `[SS9]` field rounded
away to `00.000000000`. -/
theorem C8_counterexample :
    format_aprx "[SS9] [DSEC3]".toList = pydiv 1 (10 ^ 3) ∧
    format_aprx "[SS9] [DSEC3]".toList ≠ pydiv 1 (10 ^ 9) ∧
    format_aprx "[SS9] [DSEC3]".toList ≠ (1 / 10 ^ 9 : ℚ) ∧
    format_time "[SS9] [DSEC3]".toList (cal_to_mjd2 [2019, 2, 11, 0, 0, fl (1 / 10 ^ 9)])
      = "00.000000000 00000.000".toList := by
  decide

/-- C9 counterexample: `convtime` with the unknown input format `"foo"`
fails with the (modelled) `UnboundLocalError`, not with a typed
`UnknownFormat` error. -/
theorem C9_counterexample :
    convtime "foo" "mjd" (.num 57022) 99 ≠ .error .unknownFormat ∧
    convtime "foo" "mjd" (.num 57022) 99 = .error .unboundLocal := by
  decide

/-- C3: the carry cascade of `mjd2_to_cal` does not work at every precision
level.  At the input `cal = [2019, 2, 11, 23, 59, 59.999999999]` with
rounding increment `aprx = 1/10**5`, the rounded seconds value
`round(ss/aprx)*aprx` is `60.00000000000001 ≠ 60`, so no carry fires and
the function returns an invalid seconds field greater than 60; at
`aprx = 1/10**6` the cascade does fire across the day boundary, giving the
claim's reference rendering `"2019-043 00:00:00.000000"`. -/
theorem C3_cascade_bug :
    mjd2_to_cal (cal_to_mjd2 [2019, 2, 11, 23, 59, fl (59999999999 / 10 ^ 9)]) (pydiv 1 (10 ^ 5))
      = [2019, 2, 11, 23, 59, pymul (fl ((6000000 : ℤ) : ℚ)) (pydiv 1 (10 ^ 5))] ∧
    (60 : ℚ) < (mjd2_to_cal (cal_to_mjd2 [2019, 2, 11, 23, 59, fl (59999999999 / 10 ^ 9)])
      (pydiv 1 (10 ^ 5))).getD 5 0 ∧
    format_time "[YYYY]-[DDD] [HH]:[MN]:[SS6]".toList
      (cal_to_mjd2 [2019, 2, 11, 23, 59, fl (59999999999 / 10 ^ 9)])
      = "2019-043 00:00:00.000000".toList := by
  decide

/-- Relative rounding bound: `fl x ≤ B (1 + 2^-53)` whenever `0 ≤ x ≤ B`. -/
theorem fl_le_of_bound (x B : ℚ) (hx0 : 0 ≤ x) (hxB : x ≤ B) :
    fl x ≤ B * (1 + pow2 (-53)) := by
  have h := fl_approx x hx0
  rw [abs_le] at h
  have hp := pow2_pos (-53)
  nlinarith [h.2, mul_nonneg (sub_nonneg.mpr hxB) (le_of_lt hp)]

theorem fl_lt_of_bound (x B C : ℚ) (hx0 : 0 ≤ x) (hxB : x ≤ B)
    (hBC : B * (1 + pow2 (-53)) < C) : fl x < C :=
  lt_of_le_of_lt (fl_le_of_bound x B hx0 hxB) hBC

/-- C2 (amended): for `|day| ≤ 2^51` and `|frac| ≤ 2^51` — a range in which
the int → float conversion of the carry `tmp` is exact — `clean_mjd2`
normalizes the fraction into the closed interval `[0, 1]` (the value 1
itself can occur, e.g. for negative integer fractions) and preserves
`day + frac` to within one rounding of `2^-53`; the two reference
evaluations hold exactly.  Beyond `2^53` even these bounds fail
(the counterexample's second part). -/
theorem C2_normalize :
    (∀ (day : ℤ) (frac : ℚ), |(day : ℚ)| ≤ pow2 51 → |frac| ≤ pow2 51 →
      0 ≤ (clean_mjd2 [(day : ℚ), frac]).getD 1 0 ∧
      (clean_mjd2 [(day : ℚ), frac]).getD 1 0 ≤ 1 ∧
      |(clean_mjd2 [(day : ℚ), frac]).getD 0 0 + (clean_mjd2 [(day : ℚ), frac]).getD 1 0
        - ((day : ℚ) + frac)| ≤ pow2 (-53)) ∧
    clean_mjd2 [57022, fl (6 / 5)] = [57023, fl (19999999999999996 / 100000000000000000)] ∧
    clean_mjd2 [57022, fl (-6 / 5)] = [57020, fl (8 / 10)] := by
  refine ⟨?_, by decide, by decide⟩
  intro day frac hday hfrac
  set tmp : ℤ := if 0 ≤ frac then pytrunc frac else pytrunc frac - 1 with htmp
  have hp51 : (pow2 51 : ℚ) = ((2 ^ 51 : ℤ) : ℚ) := by decide
  have hfb := abs_le.mp hfrac
  have hdb := abs_le.mp hday
  have hdayZ : -(2 ^ 51) ≤ day ∧ day ≤ 2 ^ 51 := by
    rw [hp51] at hdb
    exact ⟨by exact_mod_cast hdb.1, by exact_mod_cast hdb.2⟩
  have htmpb : -(2 ^ 51 + 1) ≤ tmp ∧ tmp ≤ 2 ^ 51 + 1 := by
    rw [htmp]
    by_cases hf : 0 ≤ frac
    · rw [if_pos hf, pytrunc_nonneg frac hf]
      have hlo : (0 : ℤ) ≤ ⌊frac⌋ := Int.floor_nonneg.mpr hf
      have h1 : (⌊frac⌋ : ℚ) ≤ pow2 51 := le_trans (Int.floor_le frac) hfb.2
      rw [hp51] at h1
      have h2 : ⌊frac⌋ ≤ 2 ^ 51 := by exact_mod_cast h1
      omega
    · rw [if_neg hf]
      have htr : pytrunc frac = ⌈frac⌉ := if_neg hf
      rw [htr]
      have h1 : (-(pow2 51) : ℚ) ≤ (⌈frac⌉ : ℚ) := le_trans hfb.1 (Int.le_ceil frac)
      rw [hp51] at h1
      have h2 : -(2 ^ 51) ≤ ⌈frac⌉ := by exact_mod_cast h1
      have h3 : ⌈frac⌉ ≤ 0 := Int.ceil_le.mpr (by exact_mod_cast le_of_lt (not_le.mp hf))
      omega
  have hflt : fl (tmp : ℚ) = (tmp : ℚ) :=
    fl_intCast tmp (abs_lt.mpr ⟨by omega, by omega⟩)
  have hred : clean_mjd2 [(day : ℚ), frac]
      = [pyadd (day : ℚ) (fl (tmp : ℚ)), pysub frac (fl (tmp : ℚ))] := rfl
  rw [hred, hflt]
  have hadd : pyadd (day : ℚ) (tmp : ℚ) = ((day + tmp : ℤ) : ℚ) := by
    have hcast : (day : ℚ) + (tmp : ℚ) = ((day + tmp : ℤ) : ℚ) := by push_cast; ring
    show fl ((day : ℚ) + (tmp : ℚ)) = _
    rw [hcast]
    exact fl_intCast _ (abs_lt.mpr ⟨by omega, by omega⟩)
  rw [hadd]
  simp only [List.getD_cons_succ, List.getD_cons_zero]
  set x := frac - (tmp : ℚ) with hx
  have hx0 : 0 ≤ x := by
    rw [hx, htmp]
    by_cases hf : 0 ≤ frac
    · rw [if_pos hf, pytrunc_nonneg frac hf]
      linarith [Int.floor_le frac]
    · rw [if_neg hf]
      have htr : pytrunc frac = ⌈frac⌉ := if_neg hf
      rw [htr]
      push_cast
      linarith [Int.ceil_lt_add_one frac]
  have hx1 : x ≤ 1 := by
    rw [hx, htmp]
    by_cases hf : 0 ≤ frac
    · rw [if_pos hf, pytrunc_nonneg frac hf]
      linarith [Int.lt_floor_add_one frac]
    · rw [if_neg hf]
      have htr : pytrunc frac = ⌈frac⌉ := if_neg hf
      rw [htr]
      push_cast
      linarith [Int.le_ceil frac]
  have hsub : pysub frac (tmp : ℚ) = fl x := rfl
  rw [hsub]
  refine ⟨fl_nonneg x hx0, fl_le_one x hx0 hx1, ?_⟩
  have happ := fl_approx x hx0
  rw [abs_le] at happ
  have hp := pow2_pos (-53)
  have hxp : x * pow2 (-53) ≤ pow2 (-53) := by nlinarith
  rw [show ((day + tmp : ℤ) : ℚ) + fl x - ((day : ℚ) + frac) = fl x - x by
      rw [hx]; push_cast; ring,
    abs_le]
  constructor <;> nlinarith [happ.1, happ.2, mul_nonneg hx0 (le_of_lt hp)]

/-- C2 witness: the normalization bounds applied at `(57022, fl 1.2)`. -/
theorem C2_witness :
    |((57022 : ℤ) : ℚ)| ≤ pow2 51 ∧ |fl (6 / 5)| ≤ pow2 51 ∧
    (0 ≤ (clean_mjd2 [((57022 : ℤ) : ℚ), fl (6 / 5)]).getD 1 0 ∧
     (clean_mjd2 [((57022 : ℤ) : ℚ), fl (6 / 5)]).getD 1 0 ≤ 1 ∧
     |(clean_mjd2 [((57022 : ℤ) : ℚ), fl (6 / 5)]).getD 0 0 +
       (clean_mjd2 [((57022 : ℤ) : ℚ), fl (6 / 5)]).getD 1 0
       - (((57022 : ℤ) : ℚ) + fl (6 / 5))| ≤ pow2 (-53)) :=
  ⟨by decide, by decide, C2_normalize.1 57022 (fl (6 / 5)) (by decide) (by decide)⟩

/-- C5 (amended): the Gregorian branch of `jd_to_date` is taken exactly
when the integer part of `jd + 0.5` (as computed in double arithmetic; the
addition is exact for every representable `jd + 0.5`) exceeds 2299160 — the
condition is on the shifted value, not on the integer part of the input —
and `jd_to_date(2446113.75) = (1985, 2, 17.25)`. -/
theorem C5_greg_branch :
    (∀ jd : ℚ, 0 ≤ jd → pyadd jd (1 / 2) = jd + 1 / 2 →
      (jd_to_date_greg jd = true ↔ 2299160 < ⌊jd + 1 / 2⌋)) ∧
    jd_to_date (9784455 / 4) = (1985, 2, 69 / 4) := by
  refine ⟨?_, by decide⟩
  intro jd h0 hexact
  unfold jd_to_date_greg
  rw [hexact, pytrunc_nonneg _ (by linarith)]
  exact decide_eq_true_iff

/-- C5 witness: the amended branch rule applied at `jd = 2446113.75`. -/
theorem C5_witness :
    jd_to_date_greg (9784455 / 4) = true ↔ 2299160 < ⌊(9784455 / 4 : ℚ) + 1 / 2⌋ :=
  C5_greg_branch.1 (9784455 / 4) (by decide) (by decide)

/-- Shape of a calendar rendering: always a six-element list on an
`[day, frac]` input. -/
theorem mjd2_to_cal_cons (a b aprx : ℚ) (t : List ℚ) :
    ∃ u1 u2 u3 u4 u5 u6, mjd2_to_cal (a :: b :: t) aprx = [u1, u2, u3, u4, u5, u6] :=
  ⟨_, _, _, _, _, _, rfl⟩

/-- Shape of `cal_to_mjd2`: always a two-element list on a six-element input. -/
theorem cal_to_mjd2_cons (a b c d e g : ℚ) (t : List ℚ) :
    ∃ u v, cal_to_mjd2 (a :: b :: c :: d :: e :: g :: t) = [u, v] :=
  ⟨_, _, rfl⟩

/-- C7 (amended): the GPS week of `mjd2_to_gps2` is the truncation toward
zero of `(mjd - 44244)/7.`, which agrees with `⌊(mjd - 44244)/7⌋` exactly
when the (re-encoded) day is at or after the GPS epoch 44244; the `gps2`
hour, minute and second fields are exactly those of the calendar rendering
at the same rounding increment. -/
theorem C7_gps_week :
    (∀ dm : ℤ, 44244 ≤ dm → dm ≤ 44244 + 2 ^ 50 →
      gpsWeekOf (dm : ℚ) = ⌊((dm : ℚ) - 44244) / 7⌋) ∧
    (∀ (m f aprx : ℚ), (mjd2_to_gps2 [m, f] aprx).drop 2 = (mjd2_to_cal [m, f] aprx).drop 3) := by
  constructor
  · intro dm h1 h2
    unfold gpsWeekOf
    have hcast : ((dm : ℚ) - 44244) = ((dm - 44244 : ℤ) : ℚ) := by push_cast; ring
    rw [hcast]
    exact pytrunc_pydiv_int (dm - 44244) 7 (by omega) (by omega) (by omega)
  · intro m f aprx
    obtain ⟨u1, u2, u3, u4, u5, u6, hc⟩ := mjd2_to_cal_cons m f aprx []
    obtain ⟨v1, v2, hv⟩ := cal_to_mjd2_cons u1 u2 u3 0 0 0 []
    simp only [mjd2_to_gps2, hc, hv]
    rfl

/-- C7 witness: the amended week rule applied at day 44250. -/
theorem C7_witness : gpsWeekOf ((44250 : ℤ) : ℚ) = ⌊(((44250 : ℤ) : ℚ) - 44244) / 7⌋ :=
  C7_gps_week.1 44250 (by decide) (by decide)

/-- C8 (amended): `format_time` derives one global rounding increment
`aprx = 1/10**k`, where `k` is the precision of the `[DSEC<k>]` token when
one is present (overwriting, not maximized with, any `[SS<k>]` precision)
and otherwise the precision of the `[SS<k>]` token; the calendar,
day-of-year and GPS-week renderings are all produced with that single
increment (and the MJD rendering unrounded). -/
theorem C8_aprx_rule :
    (∀ a b : Fin 10,
      format_aprx ("[SS".toList ++ [dchar a] ++ "] [DSEC".toList ++ [dchar b] ++ "]".toList)
        = pydiv 1 (10 ^ (b : ℕ)) ∧
      format_aprx ("[SS".toList ++ [dchar a] ++ "]".toList) = pydiv 1 (10 ^ (a : ℕ))) ∧
    (∀ (istr : List Char) (mjd2 : List ℚ),
      format_time istr mjd2 =
        format_subst istr (mjd2_to_cal mjd2 (format_aprx istr))
          (mjd2_to_doy mjd2 (format_aprx istr)) (mjd2_to_gps2 mjd2 (format_aprx istr))
          (mjd2_to_mjd mjd2)) := by
  exact ⟨by decide, fun _ _ => rfl⟩

/-- C4: the Gregorian correction of `date_to_jd` is `B = 2 - A + ⌊A/4⌋`
with `A = ⌊yearp/100⌋` (in exact integer arithmetic) for every date on or
after 1582-10-15 within the double-exact year range `|y| ≤ 10^6`, and
`B = 0` (Julian rule) for every date strictly before; and
`date_to_jd(1985, 2, 17.25) = 2446113.75`. -/
theorem C4_gregorian_B :
    (∀ (y m : ℤ) (d : ℚ), 1 ≤ m → m ≤ 12 → |y| ≤ 10 ^ 6 →
      ((onOrAfterCutover y m d →
        date_to_jd_B (y : ℚ) (m : ℚ) d =
          2 - ⌊(((if m = 1 ∨ m = 2 then y - 1 else y) : ℤ) : ℚ) / 100⌋ +
            ⌊((⌊(((if m = 1 ∨ m = 2 then y - 1 else y) : ℤ) : ℚ) / 100⌋ : ℤ) : ℚ) / 4⌋) ∧
       (¬ onOrAfterCutover y m d → date_to_jd_B (y : ℚ) (m : ℚ) d = 0))) ∧
    date_to_jd 1985 2 (69 / 4) = 9784455 / 4 := by
  refine ⟨?_, by decide⟩
  intro y m d hm1 hm12 hy
  have hyabs : -(10 ^ 6) ≤ y ∧ y ≤ 10 ^ 6 := abs_le.mp hy
  constructor
  · intro hcut
    have hybig : 1582 ≤ y := by
      rcases hcut with h | ⟨h, _⟩ | ⟨h, _⟩ <;> omega
    have hbefore : ¬ ((y : ℚ) < 1582 ∨ ((y : ℚ) = 1582 ∧ (m : ℚ) < 10) ∨
        ((y : ℚ) = 1582 ∧ (m : ℚ) = 10 ∧ d < 15)) := by
      rcases hcut with h | ⟨hy2, hm⟩ | ⟨hy2, hm, hd⟩
      · push_neg
        have hA : (1582 : ℚ) ≤ (y : ℚ) := by
          exact_mod_cast (by omega : (1582 : ℤ) ≤ y)
        have hB : (y : ℚ) ≠ 1582 := by
          intro hc
          have : y = 1582 := by exact_mod_cast hc
          omega
        exact ⟨hA, fun hc => absurd hc hB, fun hc => absurd hc hB⟩
      · push_neg
        subst hy2
        refine ⟨by norm_num, fun _ => ?_, fun _ hc => ?_⟩
        · exact_mod_cast (by omega : (10 : ℤ) ≤ m)
        · exact absurd (by exact_mod_cast hc : m = 10) (by omega)
      · push_neg
        subst hy2
        subst hm
        exact ⟨by norm_num, fun _ => by norm_num, fun _ _ => hd⟩
    unfold date_to_jd_B
    rw [if_neg hbefore]
    set yp : ℤ := if m = 1 ∨ m = 2 then y - 1 else y with hyp
    have hqif : (if (m : ℚ) = 1 ∨ (m : ℚ) = 2 then (y : ℚ) - 1 else (y : ℚ)) = (yp : ℚ) := by
      rw [hyp]
      by_cases hm : m = 1 ∨ m = 2
      · rw [if_pos (by rcases hm with h | h <;> [left; right] <;> exact_mod_cast h), if_pos hm]
        push_cast
        ring
      · rw [if_neg ?_, if_neg hm]
        intro hc
        rcases hc with h | h
        · exact hm (Or.inl (by exact_mod_cast h))
        · exact hm (Or.inr (by exact_mod_cast h))
    simp only [hqif]
    have hyp0 : 0 ≤ yp := by rw [hyp]; split_ifs <;> omega
    have hypb : yp < 2 ^ 53 := by rw [hyp]; split_ifs <;> omega
    have hA := pytrunc_pydiv_int yp 100 hyp0 hypb (by norm_num)
    push_cast at hA
    rw [hA]
    have hA0 : 0 ≤ ⌊(yp : ℚ) / 100⌋ := Int.floor_nonneg.mpr (by positivity)
    have hAb : ⌊(yp : ℚ) / 100⌋ < 2 ^ 53 := by
      have h1 : (⌊(yp : ℚ) / 100⌋ : ℚ) ≤ (yp : ℚ) / 100 := Int.floor_le _
      have h3 : (yp : ℚ) / 100 ≤ (yp : ℚ) := by
        have : (0 : ℚ) ≤ (yp : ℚ) := by exact_mod_cast hyp0
        linarith
      have h4 : (⌊(yp : ℚ) / 100⌋ : ℚ) ≤ (yp : ℚ) := le_trans h1 h3
      have h5 : ⌊(yp : ℚ) / 100⌋ ≤ yp := by exact_mod_cast h4
      omega
    have hA4 := pytrunc_pydiv_int ⌊(yp : ℚ) / 100⌋ 4 hA0 hAb (by norm_num)
    push_cast at hA4
    rw [hA4]
  · intro hncut
    have hbefore : ((y : ℚ) < 1582 ∨ ((y : ℚ) = 1582 ∧ (m : ℚ) < 10) ∨
        ((y : ℚ) = 1582 ∧ (m : ℚ) = 10 ∧ d < 15)) := by
      unfold onOrAfterCutover at hncut
      push_neg at hncut
      obtain ⟨h1, h2, h3⟩ := hncut
      rcases lt_trichotomy y 1582 with hy1 | hy1 | hy1
      · exact Or.inl (by exact_mod_cast hy1)
      · rcases lt_trichotomy m 10 with hmm | hmm | hmm
        · exact Or.inr (Or.inl ⟨by exact_mod_cast hy1, by exact_mod_cast hmm⟩)
        · have hd15 : d < 15 := h3 hy1 hmm
          exact Or.inr (Or.inr ⟨by exact_mod_cast hy1, by exact_mod_cast hmm, hd15⟩)
        · have := h2 hy1
          omega
      · have := h1
        omega
    unfold date_to_jd_B
    rw [if_pos hbefore]

/-- C4 witness: the Gregorian rule applied at (1985, 2, 17.25). -/
theorem C4_witness :
    date_to_jd_B ((1985 : ℤ) : ℚ) ((2 : ℤ) : ℚ) (69 / 4) =
      2 - ⌊(((if (2 : ℤ) = 1 ∨ (2 : ℤ) = 2 then (1985 : ℤ) - 1 else (1985 : ℤ)) : ℤ) : ℚ) / 100⌋ +
        ⌊((⌊(((if (2 : ℤ) = 1 ∨ (2 : ℤ) = 2 then (1985 : ℤ) - 1 else (1985 : ℤ)) : ℤ) : ℚ) / 100⌋
          : ℤ) : ℚ) / 4⌋ :=
  (C4_gregorian_B.1 1985 2 (69 / 4) (by decide) (by decide) (by decide)).1 (Or.inl (by decide))

/-- C9 (amended): an unknown format name makes `convtime` fail by raising —
the dispatcher falls through every `elif` and reading the never-assigned
local raises `UnboundLocalError` — never with a typed `UnknownFormat` error
and never with a silent fallback; an unknown output format likewise makes
the output stage fail the same way. -/
theorem C9_unknown_format_behavior :
    (∀ (ifmt ofmt : String) (data : PyVal) (aprx : ℚ), ifmt ∉ format_list →
      convtime ifmt ofmt data aprx = .error .unboundLocal) ∧
    (∀ (ofmt : String) (mjd2 : PyVal) (aprx : ℚ), ofmt ∉ format_list →
      convtimeOut ofmt mjd2 aprx = .error .unboundLocal) := by
  constructor
  · intro ifmt ofmt data aprx h
    simp only [format_list, List.mem_cons, List.not_mem_nil, or_false, not_or] at h
    obtain ⟨h1, h2, h3, h4, h5, h6, h7, h8, h9, h10, h11⟩ := h
    unfold convtime convtimeIn
    simp only [if_neg h1, if_neg h2, if_neg h3, if_neg h4, if_neg h5, if_neg h6, if_neg h7,
      if_neg h8, if_neg h9, if_neg h10, if_neg h11]
  · intro ofmt mjd2 aprx h
    simp only [format_list, List.mem_cons, List.not_mem_nil, or_false, not_or] at h
    obtain ⟨h1, h2, h3, h4, h5, h6, h7, h8, h9, h10, h11⟩ := h
    unfold convtimeOut
    simp only [if_neg h1, if_neg h2, if_neg h3, if_neg h4, if_neg h5, if_neg h6, if_neg h7,
      if_neg h8, if_neg h9, if_neg h10, if_neg h11]

/-- C9 witness: the amended behavior at the concrete unknown format "foo". -/
theorem C9_witness :
    convtime "foo" "mjd" (.num 0) 99 = .error .unboundLocal ∧
    convtimeOut "foo" (.num 0) 99 = .error .unboundLocal :=
  ⟨C9_unknown_format_behavior.1 "foo" "mjd" (.num 0) 99 (by decide),
   C9_unknown_format_behavior.2 "foo" (.num 0) 99 (by decide)⟩

/-- C1: the cross-consistency contract fails on the code.  The specific
instance `convtime(gps, [1825, 259200.0] → cal → gps)` does reproduce its
input exactly, but the calendar payload `[70000, 2, 1, 3, 7, 30.0]` (a
valid proleptic date, well inside double-precision exactness) comes back
from `cal → mjd2 → year → mjd2 → cal` with its seconds field perturbed to
`30.0002296641469`, an error of about `2.66e-9` day — more than the
contract's `1e-9`-day tolerance for float formats (and not exact under any
reading). -/
theorem C1_roundtrip_bug :
    roundtrip "gps" "cal" (.lst [1825, 259200]) = .ok (.lst [1825, 259200]) ∧
    roundtrip "cal" "year" (.lst [70000, 2, 1, 3, 7, 30])
      = .ok (.lst [70000, 2, 1, 3, 7, 4026562665 / 134217728]) ∧
    (1 / 10 ^ 9 : ℚ) < ((4026562665 / 134217728 : ℚ) - 30) / 86400 := by
  decide

/-- C10: for every double `days` with `0 ≤ days < 1`, `days_to_hmsm` returns
an hour in `0..23`, a minute in `0..59`, a second in `0..59` and a
microsecond float in `[0, 10^6)`, and `mjd2_to_cal` without a rounding
increment (`aprx = 99`) yields in-range hour, minute and second fields
(the seconds float stays strictly below 60). -/
theorem C10_field_ranges (days : ℚ) (hd : IsDbl days) (h0 : 0 ≤ days) (h1 : days < 1) :
    (0 ≤ (days_to_hmsm days).1 ∧ (days_to_hmsm days).1 ≤ 23) ∧
    (0 ≤ (days_to_hmsm days).2.1 ∧ (days_to_hmsm days).2.1 ≤ 59) ∧
    (0 ≤ (days_to_hmsm days).2.2.1 ∧ (days_to_hmsm days).2.2.1 ≤ 59) ∧
    (0 ≤ (days_to_hmsm days).2.2.2 ∧ (days_to_hmsm days).2.2.2 < 10 ^ 6) ∧
    (∀ mjd : ℚ,
      0 ≤ (mjd2_to_cal [mjd, days] 99).getD 3 0 ∧
      (mjd2_to_cal [mjd, days] 99).getD 3 0 ≤ 23 ∧
      0 ≤ (mjd2_to_cal [mjd, days] 99).getD 4 0 ∧
      (mjd2_to_cal [mjd, days] 99).getD 4 0 ≤ 59 ∧
      0 ≤ (mjd2_to_cal [mjd, days] 99).getD 5 0 ∧
      (mjd2_to_cal [mjd, days] 99).getD 5 0 < 60) := by
  have hp53 := pow2_pos (-53)
  have hdays53 : days ≤ 1 - pow2 (-53) := dbl_lt_one days hd h0 h1
  -- hours = days * 24.
  set H : ℚ := pymul days 24 with hH
  have hH0 : 0 ≤ H := fl_nonneg _ (mul_nonneg h0 (by norm_num))
  have hH24 : H < 24 :=
    fl_lt_of_bound _ (24 * (1 - pow2 (-53))) 24 (mul_nonneg h0 (by norm_num))
      (by linarith) (by decide)
  have hHDbl : IsDbl H := fl_idem _ (mul_nonneg h0 (by norm_num))
  have hhour0 : 0 ≤ pytrunc H := by
    rw [pytrunc_nonneg _ hH0]; exact Int.floor_nonneg.mpr hH0
  have hhour23 : pytrunc H ≤ 23 := by
    rw [pytrunc_nonneg _ hH0]
    have h2 : ⌊H⌋ < (24 : ℤ) := Int.floor_lt.mpr (by exact_mod_cast hH24)
    omega
  have hHf := frac_le H hHDbl hH0 (lt_trans hH24 (by decide))
  -- mins = frac(hours) * 60.
  set M : ℚ := pymul (H - (pytrunc H : ℚ)) 60 with hM
  have hM0 : 0 ≤ M := fl_nonneg _ (mul_nonneg hHf.1 (by norm_num))
  have hM60 : M < 60 :=
    fl_lt_of_bound _ (60 * (1 - pow2 (-53))) 60 (mul_nonneg hHf.1 (by norm_num))
      (by linarith [hHf.2]) (by decide)
  have hMDbl : IsDbl M := fl_idem _ (mul_nonneg hHf.1 (by norm_num))
  have hmin0 : 0 ≤ pytrunc M := by
    rw [pytrunc_nonneg _ hM0]; exact Int.floor_nonneg.mpr hM0
  have hmin59 : pytrunc M ≤ 59 := by
    rw [pytrunc_nonneg _ hM0]
    have h2 : ⌊M⌋ < (60 : ℤ) := Int.floor_lt.mpr (by exact_mod_cast hM60)
    omega
  have hMf := frac_le M hMDbl hM0 (lt_trans hM60 (by decide))
  -- secs = frac(mins) * 60.
  set S : ℚ := pymul (M - (pytrunc M : ℚ)) 60 with hS
  have hS0 : 0 ≤ S := fl_nonneg _ (mul_nonneg hMf.1 (by norm_num))
  have hS60 : S < 60 :=
    fl_lt_of_bound _ (60 * (1 - pow2 (-53))) 60 (mul_nonneg hMf.1 (by norm_num))
      (by linarith [hMf.2]) (by decide)
  have hSDbl : IsDbl S := fl_idem _ (mul_nonneg hMf.1 (by norm_num))
  have hsec0 : 0 ≤ pytrunc S := by
    rw [pytrunc_nonneg _ hS0]; exact Int.floor_nonneg.mpr hS0
  have hsec59 : pytrunc S ≤ 59 := by
    rw [pytrunc_nonneg _ hS0]
    have h2 : ⌊S⌋ < (60 : ℤ) := Int.floor_lt.mpr (by exact_mod_cast hS60)
    omega
  have hSf := frac_le S hSDbl hS0 (lt_trans hS60 (by decide))
  -- micro = frac(secs) * 1e6.
  set U : ℚ := pymul (S - (pytrunc S : ℚ)) (10 ^ 6) with hU
  have hU0 : 0 ≤ U := fl_nonneg _ (mul_nonneg hSf.1 (by norm_num))
  have hU1e6 : U < 10 ^ 6 :=
    fl_lt_of_bound _ ((1 - pow2 (-53)) * 10 ^ 6) (10 ^ 6) (mul_nonneg hSf.1 (by norm_num))
      (by nlinarith [hSf.2]) (by decide)
  -- seconds-with-micro as mjd2_to_cal computes it.
  have hms0 : 0 ≤ pymul U c1em6 := fl_nonneg _ (mul_nonneg hU0 (by decide))
  have hss0 : 0 ≤ pyadd (pytrunc S : ℚ) (pymul U c1em6) :=
    fl_nonneg _ (add_nonneg (by exact_mod_cast hsec0) hms0)
  have hss60 : pyadd (pytrunc S : ℚ) (pymul U c1em6) < 60 := by
    rcases lt_or_le (pytrunc S) 59 with hcase | hcase
    · -- sec ≤ 58: a loose microsecond bound suffices.
      have hUb : U ≤ (1 - pow2 (-53)) * 10 ^ 6 * (1 + pow2 (-53)) := by
        rw [hU]
        exact fl_le_of_bound _ ((1 - pow2 (-53)) * 10 ^ 6)
          (mul_nonneg hSf.1 (by norm_num)) (by nlinarith [hSf.2])
      have hmsb : pymul U c1em6 ≤
          (1 - pow2 (-53)) * 10 ^ 6 * (1 + pow2 (-53)) * c1em6 * (1 + pow2 (-53)) :=
        fl_le_of_bound _ ((1 - pow2 (-53)) * 10 ^ 6 * (1 + pow2 (-53)) * c1em6)
          (mul_nonneg hU0 (by decide))
          (mul_le_mul_of_nonneg_right hUb (by decide))
      have hseccast : ((pytrunc S : ℤ) : ℚ) ≤ 58 := by exact_mod_cast (by omega : pytrunc S ≤ 58)
      refine fl_lt_of_bound _
        (58 + (1 - pow2 (-53)) * 10 ^ 6 * (1 + pow2 (-53)) * c1em6 * (1 + pow2 (-53))) 60
        (add_nonneg (by exact_mod_cast hsec0) hms0)
        (add_le_add hseccast hmsb) (by decide)
    · -- sec = 59: the seconds fraction sits on the 2^-47 grid below 60.
      have hsec : pytrunc S = 59 := le_antisymm hsec59 hcase
      have h59S : (59 : ℚ) ≤ S := by
        have hfl : ⌊S⌋ = 59 := by rw [← pytrunc_nonneg _ hS0]; exact hsec
        have h2 : (59 : ℤ) ≤ ⌊S⌋ := by omega
        exact_mod_cast Int.le_floor.mp h2
      have hSpos : 0 < S := lt_of_lt_of_le (by norm_num) h59S
      have hS47 : S ≤ 60 - pow2 (-47) := by
        have h2 := dbl_lt_imp_le S 60 5 (60 * 2 ^ 47) hSDbl hSpos hS60
          (by decide) (by decide) (by decide)
        have h3 : pow2 (5 - 52) = pow2 (-47) := by norm_num
        linarith [h3 ▸ h2]
      have hSf47 : S - ((pytrunc S : ℤ) : ℚ) ≤ 1 - pow2 (-47) := by
        rw [hsec]
        push_cast
        linarith
      have hUb : U ≤ (1 - pow2 (-47)) * 10 ^ 6 * (1 + pow2 (-53)) := by
        rw [hU]
        exact fl_le_of_bound _ ((1 - pow2 (-47)) * 10 ^ 6)
          (mul_nonneg hSf.1 (by norm_num)) (by nlinarith [hSf47])
      have hmsb : pymul U c1em6 ≤
          (1 - pow2 (-47)) * 10 ^ 6 * (1 + pow2 (-53)) * c1em6 * (1 + pow2 (-53)) :=
        fl_le_of_bound _ ((1 - pow2 (-47)) * 10 ^ 6 * (1 + pow2 (-53)) * c1em6)
          (mul_nonneg hU0 (by decide))
          (mul_le_mul_of_nonneg_right hUb (by decide))
      have hseccast : ((pytrunc S : ℤ) : ℚ) = 59 := by exact_mod_cast hsec
      refine fl_lt_of_bound _
        (59 + (1 - pow2 (-47)) * 10 ^ 6 * (1 + pow2 (-53)) * c1em6 * (1 + pow2 (-53))) 60
        (add_nonneg (by exact_mod_cast hsec0) hms0) ?_ (by decide)
      rw [hseccast]
      linarith [hmsb]
  have htuple : days_to_hmsm days = (pytrunc H, pytrunc M, pytrunc S, U) := rfl
  refine ⟨?_, ?_, ?_, ?_, ?_⟩
  · rw [htuple]; exact ⟨hhour0, hhour23⟩
  · rw [htuple]; exact ⟨hmin0, hmin59⟩
  · rw [htuple]; exact ⟨hsec0, hsec59⟩
  · rw [htuple]; exact ⟨hU0, hU1e6⟩
  · intro mjd
    have hcal : mjd2_to_cal [mjd, days] 99 =
        [((jd_to_date (pyadd mjd c2400000_5)).1 : ℚ),
         ((jd_to_date (pyadd mjd c2400000_5)).2.1 : ℚ),
         ((pytrunc (jd_to_date (pyadd mjd c2400000_5)).2.2 : ℤ) : ℚ),
         ((pytrunc H : ℤ) : ℚ), ((pytrunc M : ℤ) : ℚ),
         pyadd (pytrunc S : ℚ) (pymul U c1em6)] := rfl
    rw [hcal]
    simp only [List.getD_cons_succ, List.getD_cons_zero]
    refine ⟨by exact_mod_cast hhour0, by exact_mod_cast hhour23,
      by exact_mod_cast hmin0, by exact_mod_cast hmin59, hss0, hss60⟩

/-- C10 witness: the field-range invariant instantiated at `days = 1/2`
(and `mjd = 51544` for the calendar fields). -/
theorem C10_witness :
    IsDbl (1 / 2 : ℚ) ∧ (0 : ℚ) ≤ 1 / 2 ∧ (1 / 2 : ℚ) < 1 ∧
    (0 ≤ (days_to_hmsm (1 / 2)).2.2.2 ∧ (days_to_hmsm (1 / 2)).2.2.2 < 10 ^ 6) ∧
    (0 ≤ (mjd2_to_cal [51544, 1 / 2] 99).getD 5 0 ∧
      (mjd2_to_cal [51544, 1 / 2] 99).getD 5 0 < 60) :=
  ⟨by unfold IsDbl; decide, by norm_num, by norm_num,
   (C10_field_ranges (1 / 2) (by unfold IsDbl; decide) (by norm_num) (by norm_num)).2.2.2.1,
   by
     have h := (C10_field_ranges (1 / 2) (by unfold IsDbl; decide) (by norm_num)
       (by norm_num)).2.2.2.2 51544
     exact ⟨h.2.2.2.2.1, h.2.2.2.2.2⟩⟩

end TST
